import Mathlib

/-
Verification development for the kolosys/synapse similarity cache.

The Go source is shallowly embedded: each Go function is translated to a
Lean function over explicit state.  Machine integers are modeled as Nat/Int
(all counters stay far below 2^64 in every statement considered, so wrap
is irrelevant except in the FNV-1a hash, where the 64-bit wrap is written
out explicitly).  float64 similarity scores and weights are modeled as the
rationals: the cache code only compares scores, never does arithmetic on
them, so this is comparison-faithful.  Wall-clock time is an explicit
integer parameter threaded through the operations.  The Go context is
modeled as a record carrying the namespace and a fixed cancellation flag
(the claims considered are about contexts that are cancelled, or not,
for the whole duration of an operation).
-/

namespace Synapse

/-- Ambient context (context.Context): cancellation observable through Done,
plus the namespace stored by WithNamespace / read by GetNamespace.
Context metadata is never read by the cache core and is omitted. -/
structure Ctx where
  cancelled : Bool
  nspace : String

/-- The only error value the cache can return: ctx.Err() of a cancelled
context (context.Canceled / context.DeadlineExceeded are not distinguished;
both are "the context's cancellation error"). -/
inductive GoError where
  | contextCanceled
deriving DecidableEq, Repr

/-- Entry metadata, map[string]any.  The core only ever creates the empty
map and never reads or writes it afterwards, so the value type is opaque;
it is rendered as String here. -/
abbrev Metadata := List (String × String)

/-- Entry represents a cache entry with metadata (entry.go).
ExpiresAt is Option: none models the zero time.Time, "never expires". -/
structure Entry (K V : Type) where
  key : K
  value : V
  createdAt : Int
  accessedAt : Int
  accessCount : Nat
  expiresAt : Option Int
  metadata : Metadata
  nspace : String
deriving DecidableEq

/-- newEntry (entry.go): ExpiresAt is set only when ttl > 0. -/
def newEntry {K V : Type} (key : K) (value : V) (ttl : Int) (nspace : String) (now : Int) : Entry K V :=
  { key := key
    value := value
    createdAt := now
    accessedAt := now
    accessCount := 0
    expiresAt := if 0 < ttl then some (now + ttl) else none
    metadata := []
    nspace := nspace }

/-- IsExpired (entry.go): false for the zero time, else time.Now().After(ExpiresAt). -/
def Entry.isExpired {K V : Type} (e : Entry K V) (now : Int) : Bool :=
  match e.expiresAt with
  | none => false
  | some t => decide (t < now)

/-- Touch (entry.go): update access time, increment access count. -/
def Entry.touch {K V : Type} (e : Entry K V) (now : Int) : Entry K V :=
  { e with accessedAt := now, accessCount := e.accessCount + 1 }

/-- Per-shard statistics counters (stats file).  The Go counters are atomic
uint64; the workloads quantified over here never reach 2^64 operations, so
they are modeled as Nat. -/
structure ShardStats where
  hits : Nat
  misses : Nat
  sets : Nat
  deletes : Nat
  similarSearches : Nat
  similarHits : Nat
  evictions : Nat
  expired : Nat
deriving DecidableEq, Repr

/-- newShardStats: all counters zero. -/
def newShardStats : ShardStats :=
  ⟨0, 0, 0, 0, 0, 0, 0, 0⟩

/-- Aggregated Stats snapshot (same eight counters). -/
abbrev Stats := ShardStats

/-- EvictionPolicy (eviction/policy.go) as a transition system over an
abstract internal state σ.  SelectVictim returning (any, bool) is modeled
as Option K: the Go downcast-failure branch in Shard.evict behaves exactly
like ok=false and is folded into none. -/
structure PolicySpec (σ K : Type) where
  onAccess : K → σ → σ
  onAdd : K → Nat → Int → Int → σ → σ
  onRemove : K → σ → σ
  selectVictim : σ → Option K
  polLen : σ → Nat

/-- A policy object: behavior plus current internal state, or no policy.
In Go a single policy object is shared by every shard of a cache, so the
model keeps this pair at cache level and threads it through shard calls. -/
abbrev Pol (σ K : Type) := Option (PolicySpec σ K × σ)

/-- Invoke OnAccess on the shared policy object, if present. -/
def polOnAccess {σ K : Type} (pol : Pol σ K) (k : K) : Pol σ K :=
  match pol with
  | none => none
  | some (p, st) => some (p, p.onAccess k st)

/-- Invoke OnAdd on the shared policy object, if present. -/
def polOnAdd {σ K : Type} (pol : Pol σ K) (k : K) (ac : Nat) (ca aa : Int) : Pol σ K :=
  match pol with
  | none => none
  | some (p, st) => some (p, p.onAdd k ac ca aa st)

/-- Invoke OnRemove on the shared policy object, if present. -/
def polOnRemove {σ K : Type} (pol : Pol σ K) (k : K) : Pol σ K :=
  match pol with
  | none => none
  | some (p, st) => some (p, p.onRemove k st)

/-- Remove the first occurrence of an element from a list
(container/list removal, keys-slice removal in shard.go). -/
def removeFirst {α : Type} [DecidableEq α] : List α → α → List α
  | [], _ => []
  | a :: t, k => if a = k then t else a :: removeFirst t k

/-- LRU policy internal state (eviction/lru.go): the doubly linked list of
keys, front = most recently used.  The items map is the membership of the
list.  maxSize is stored by NewLRU but never consulted. -/
structure LRUState (K : Type) where
  order : List K
  maxSize : Int

/-- NewLRU: empty list. -/
def newLRU {K : Type} (maxSize : Int) : LRUState K :=
  ⟨[], maxSize⟩

/-- LRU.OnAccess: move to front when present. -/
def lruOnAccess {K : Type} [DecidableEq K] (k : K) (st : LRUState K) : LRUState K :=
  if k ∈ st.order then { st with order := k :: removeFirst st.order k } else st

/-- LRU.OnAdd: move to front when present, else push front. -/
def lruOnAdd {K : Type} [DecidableEq K] (k : K) (st : LRUState K) : LRUState K :=
  if k ∈ st.order then { st with order := k :: removeFirst st.order k }
  else { st with order := k :: st.order }

/-- LRU.OnRemove: unlink when present. -/
def lruOnRemove {K : Type} [DecidableEq K] (k : K) (st : LRUState K) : LRUState K :=
  if k ∈ st.order then { st with order := removeFirst st.order k } else st

/-- LRU.SelectVictim: the key at the back, none when empty. -/
def lruSelectVictim {K : Type} (st : LRUState K) : Option K :=
  st.order.getLast?

/-- The LRU policy as a PolicySpec. -/
def lruPolicy (K : Type) [DecidableEq K] : PolicySpec (LRUState K) K :=
  { onAccess := lruOnAccess
    onAdd := fun k _ _ _ st => lruOnAdd k st
    onRemove := lruOnRemove
    selectVictim := lruSelectVictim
    polLen := fun st => st.order.length }

/-- Lookup in a Go map modeled as an association list (first match).
All operations below keep the keys of the list distinct, so the list
length is the map size and first-match is the match. -/
def mapFind {K V : Type} [DecidableEq K] : List (K × Entry K V) → K → Option (Entry K V)
  | [], _ => none
  | (a, e) :: t, k => if a = k then some e else mapFind t k

/-- In-place update of the entry stored under a key (pointer mutation of
a map value in Go). -/
def mapReplace {K V : Type} [DecidableEq K] : List (K × Entry K V) → K → Entry K V → List (K × Entry K V)
  | [], _, _ => []
  | (a, e) :: t, k, e2 => if a = k then (a, e2) :: t else (a, e) :: mapReplace t k e2

/-- delete(map, key): remove the binding when present. -/
def mapErase {K V : Type} [DecidableEq K] : List (K × Entry K V) → K → List (K × Entry K V)
  | [], _ => []
  | (a, e) :: t, k => if a = k then t else (a, e) :: mapErase t k

/-- Touch the entry stored under a key, when present. -/
def touchKey {K V : Type} [DecidableEq K] (data : List (K × Entry K V)) (k : K) (now : Int) : List (K × Entry K V) :=
  match mapFind data k with
  | none => data
  | some e => mapReplace data k (e.touch now)

/-- A similarity-search candidate: the running bestKey / bestValue /
bestScore triple of shard.getSimilar; found=false is Option.none. -/
structure SimCand (K V : Type) where
  key : K
  value : V
  score : Rat
deriving DecidableEq, Repr

/-- The running bestScore: 0.0 before any candidate is accepted. -/
def scOf {K V : Type} (best : Option (SimCand K V)) : Rat :=
  match best with
  | none => 0
  | some c => c.score

/-- One step of the best-candidate accumulation in shard.getSimilar:
accept when score >= threshold and score > bestScore. -/
def pickF {K V : Type} (t : Rat) (best : Option (SimCand K V)) (c : SimCand K V) : Option (SimCand K V) :=
  if t ≤ c.score ∧ scOf best < c.score then some c else best

/-- Shard (shard.go).  The shared eviction-policy reference lives at cache
level (Pol) and is threaded through the operations; every other field of
the Go struct is here.  stats is always materialized and only bumped when
enableStats (in Go the pointer is nil when disabled and never touched). -/
structure Shard (K V : Type) where
  data : List (K × Entry K V)
  keys : List K
  maxSize : Nat
  similarity : Option (K → K → Rat)
  threshold : Rat
  ttl : Int
  stats : ShardStats
  enableStats : Bool

/-- newShard (shard.go). -/
def newShard (K V : Type) (maxSize : Nat) (similarity : Option (K → K → Rat)) (threshold : Rat) (ttl : Int) (enableStats : Bool) : Shard K V :=
  { data := []
    keys := []
    maxSize := maxSize
    similarity := similarity
    threshold := threshold
    ttl := ttl
    stats := newShardStats
    enableStats := enableStats }

/-- Bump a statistics counter if stats are enabled for this shard. -/
def recordIf {K V : Type} (s : Shard K V) (f : ShardStats → ShardStats) : Shard K V :=
  if s.enableStats then { s with stats := f s.stats } else s

/-- shard.get (shard.go): poll cancel, namespace filter, expiry filter,
then touch, policy OnAccess, record hit.  (V, false) with the zero V is
modeled as none. -/
def Shard.get {σ K V : Type} [DecidableEq K] (s : Shard K V) (pol : Pol σ K) (ctx : Ctx) (now : Int) (key : K) : Option V × Shard K V × Pol σ K :=
  if ctx.cancelled then (none, s, pol)
  else
    match mapFind s.data key with
    | none => (none, recordIf s (fun st => { st with misses := st.misses + 1 }), pol)
    | some entry =>
      if ctx.nspace ≠ "" ∧ entry.nspace ≠ ctx.nspace then
        (none, recordIf s (fun st => { st with misses := st.misses + 1 }), pol)
      else if entry.isExpired now then
        (none, recordIf s (fun st => { st with expired := st.expired + 1, misses := st.misses + 1 }), pol)
      else
        (some entry.value,
         recordIf { s with data := mapReplace s.data key (entry.touch now) }
           (fun st => { st with hits := st.hits + 1 }),
         polOnAccess pol key)

/-- One iteration of the shard.getSimilar loop: skip namespace
mismatches, expired entries and absent similarity, otherwise offer the
scored candidate to the running best. -/
def scanStep {K V : Type} [DecidableEq K] (s : Shard K V) (ctx : Ctx) (now : Int) (q : K)
    (best : Option (SimCand K V)) (k : K) : Option (SimCand K V) :=
  match mapFind s.data k with
  | none => best
  | some entry =>
    if ctx.nspace ≠ "" ∧ entry.nspace ≠ ctx.nspace then best
    else if entry.isExpired now then best
    else
      match s.similarity with
      | none => best
      | some sim => pickF s.threshold best ⟨k, entry.value, sim q k⟩

/-- The candidate scan of shard.getSimilar: iterate the insertion-ordered
key list and keep the best score that passes the threshold strictly above
the running best (initially 0.0). -/
def simScan {K V : Type} [DecidableEq K] (s : Shard K V) (ctx : Ctx) (now : Int) (q : K) : Option (SimCand K V) :=
  s.keys.foldl (scanStep s ctx now q) none

/-- shard.getSimilar (shard.go): when cancelled return not-found with no
side effect (the in-loop cancellation re-poll observes the same fixed
flag, so it is subsumed by the entry poll); otherwise record the search,
scan, and on a hit touch the best entry, notify the policy and record the
similar hit. -/
def Shard.getSimilar {σ K V : Type} [DecidableEq K] (s : Shard K V) (pol : Pol σ K) (ctx : Ctx) (now : Int) (q : K) : Option (SimCand K V) × Shard K V × Pol σ K :=
  if ctx.cancelled then (none, s, pol)
  else
    let s1 := recordIf s (fun st => { st with similarSearches := st.similarSearches + 1 })
    match simScan s ctx now q with
    | none => (none, s1, pol)
    | some c =>
      (some c,
       recordIf { s1 with data := touchKey s1.data c.key now }
         (fun st => { st with similarHits := st.similarHits + 1 }),
       polOnAccess pol c.key)

/-- shard.evict (shard.go): with no policy drop the head of the key list
(FIFO); with a policy remove the selected victim — the Go delete on the
map and the keys-slice scan are no-ops when the victim is not in this
shard, but the eviction is still counted.  The error return is always nil
in the source and is kept in the signature. -/
def Shard.evict {σ K V : Type} [DecidableEq K] (s : Shard K V) : Pol σ K → Option GoError × Shard K V × Pol σ K
  | none =>
    match s.keys with
    | [] => (none, s, none)
    | key :: rest =>
      (none,
       recordIf { s with data := mapErase s.data key, keys := rest }
         (fun st => { st with evictions := st.evictions + 1 }),
       none)
  | some (p, pst) =>
    match p.selectVictim pst with
    | none => (none, s, some (p, pst))
    | some key =>
      (none,
       recordIf { s with data := mapErase s.data key, keys := removeFirst s.keys key }
         (fun st => { st with evictions := st.evictions + 1 }),
       some (p, p.onRemove key pst))

/-- shard.set (shard.go): poll cancel; overwrite in place with touch when
the key exists; otherwise evict when at capacity, then append a fresh
entry carrying the ambient namespace. -/
def Shard.set {σ K V : Type} [DecidableEq K] (s : Shard K V) (pol : Pol σ K) (ctx : Ctx) (now : Int) (key : K) (value : V) : Option GoError × Shard K V × Pol σ K :=
  if ctx.cancelled then (some GoError.contextCanceled, s, pol)
  else
    match mapFind s.data key with
    | some entry =>
      (none,
       recordIf { s with data := mapReplace s.data key (({ entry with value := value }).touch now) }
         (fun st => { st with sets := st.sets + 1 }),
       polOnAccess pol key)
    | none =>
      match (if 0 < s.maxSize ∧ s.maxSize ≤ s.data.length then Shard.evict s pol
             else (none, s, pol)) with
      | (some e, s1, pol1) => (some e, s1, pol1)
      | (none, s1, pol1) =>
        let entry := newEntry key value s1.ttl ctx.nspace now
        (none,
         recordIf { s1 with data := s1.data ++ [(key, entry)], keys := s1.keys ++ [key] }
           (fun st => { st with sets := st.sets + 1 }),
         polOnAdd pol1 key entry.accessCount entry.createdAt entry.accessedAt)

/-- shard.delete (shard.go): poll cancel; remove the binding and the first
occurrence in the key list, notify the policy, record the delete. -/
def Shard.delete {σ K V : Type} [DecidableEq K] (s : Shard K V) (pol : Pol σ K) (ctx : Ctx) (key : K) : Bool × Shard K V × Pol σ K :=
  if ctx.cancelled then (false, s, pol)
  else
    match mapFind s.data key with
    | none => (false, s, pol)
    | some _ =>
      (true,
       recordIf { s with data := mapErase s.data key, keys := removeFirst s.keys key }
         (fun st => { st with deletes := st.deletes + 1 }),
       polOnRemove pol key)

/-- shard.len: the map size (= list length, keys kept distinct). -/
def Shard.shardLen {K V : Type} (s : Shard K V) : Nat :=
  s.data.length

/-- The candidate a stored key contributes to a similarity scan, when it
is namespace-matching, unexpired and a similarity function is bound. -/
def candF {K V : Type} [DecidableEq K] (s : Shard K V) (ctx : Ctx) (now : Int) (q : K) (k : K) :
    Option (SimCand K V) :=
  match mapFind s.data k with
  | none => none
  | some entry =>
    if ctx.nspace ≠ "" ∧ entry.nspace ≠ ctx.nspace then none
    else if entry.isExpired now then none
    else
      match s.similarity with
      | none => none
      | some sim => some ⟨k, entry.value, sim q k⟩

/-- Specification device for getSimilar: the candidates the scan considers,
in iteration order — one per stored, namespace-matching, non-expired key,
scored by the bound similarity function (no candidates when none is bound). -/
def shardCands {K V : Type} [DecidableEq K] (s : Shard K V) (ctx : Ctx) (now : Int) (q : K) : List (SimCand K V) :=
  s.keys.filterMap (candF s ctx now q)

/-- Candidates that can actually be returned: score at least the shard
threshold and, because the running best starts at 0.0, strictly positive. -/
def shardElig {K V : Type} [DecidableEq K] (s : Shard K V) (ctx : Ctx) (now : Int) (q : K) : List (SimCand K V) :=
  (shardCands s ctx now q).filter (fun c => decide (s.threshold ≤ c.score) && decide (0 < c.score))

/-- Specification of a left-biased best-candidate search: the result is
none exactly when the candidate list is empty, and otherwise it is the
first candidate attaining the maximal score — everything before it scores
strictly lower, everything after it scores no higher. -/
def FirstMax {K V : Type} (E : List (SimCand K V)) : Option (SimCand K V) → Prop
  | none => E = []
  | some c => ∃ l1 l2, E = l1 ++ c :: l2 ∧
      (∀ d ∈ l1, d.score < c.score) ∧ (∀ d ∈ l2, d.score ≤ c.score)

/-- The cross-shard combining step of Cache.GetSimilar: adopt a shard's
candidate only when it strictly beats the running best. -/
def mergeB {K V : Type} (best r : Option (SimCand K V)) : Option (SimCand K V) :=
  match r with
  | some c => if scOf best < c.score then some c else best
  | none => best

/-- Options (options.go).  NumShards and MaxSize are Go ints, TTL a
time.Duration (int64 nanoseconds): all modeled as Int so that invalid
(non-positive) arguments to the option constructors are expressible. -/
structure Options (σ K : Type) where
  NumShards : Int
  MaxSize : Int
  SimilarityThreshold : Rat
  EvictionPolicy : Pol σ K
  TTL : Int
  EnableStats : Bool

/-- Option is a function that modifies Options. -/
abbrev CacheOption (σ K : Type) := Options σ K → Options σ K

/-- defaultOptions (options.go). -/
def defaultOptions (σ K : Type) : Options σ K :=
  { NumShards := 16
    MaxSize := 1000
    SimilarityThreshold := 0.8
    EvictionPolicy := none
    TTL := 0
    EnableStats := false }

/-- WithShards: accepted iff 0 < n <= 256. -/
def WithShards {σ K : Type} (n : Int) : CacheOption σ K :=
  fun o => if 0 < n ∧ n ≤ 256 then { o with NumShards := n } else o

/-- WithMaxSize: accepted iff 0 < size. -/
def WithMaxSize {σ K : Type} (size : Int) : CacheOption σ K :=
  fun o => if 0 < size then { o with MaxSize := size } else o

/-- WithThreshold: accepted iff 0 <= t <= 1. -/
def WithThreshold {σ K : Type} (t : Rat) : CacheOption σ K :=
  fun o => if 0 ≤ t ∧ t ≤ 1 then { o with SimilarityThreshold := t } else o

/-- WithEviction: stored unconditionally. -/
def WithEviction {σ K : Type} (policy : PolicySpec σ K × σ) : CacheOption σ K :=
  fun o => { o with EvictionPolicy := some policy }

/-- WithTTL: stored unconditionally — the source has no validation. -/
def WithTTL {σ K : Type} (ttl : Int) : CacheOption σ K :=
  fun o => { o with TTL := ttl }

/-- WithStats: stored unconditionally. -/
def WithStats {σ K : Type} (enable : Bool) : CacheOption σ K :=
  fun o => { o with EnableStats := enable }

/-- FNV-1a 64-bit offset basis. -/
def fnvOffset : Nat := 14695981039346656037

/-- FNV-1a 64-bit prime. -/
def fnvPrime : Nat := 1099511628211

/-- 2^64, the uint64 wrap. -/
def wordMod : Nat := 18446744073709551616

/-- FNV-1a 64-bit over a byte sequence (hash/fnv New64a + Write + Sum64). -/
def fnv1a (bytes : List Nat) : Nat :=
  bytes.foldl (fun h b => (Nat.xor h b) * fnvPrime % wordMod) fnvOffset

/-- Bytes of a string.  Go hashes the UTF-8 encoding; for the ASCII keys
used in every concrete statement below the code points are the bytes. -/
def strBytes (s : String) : List Nat :=
  s.data.map (fun ch => ch.toNat)

/-- Cache (synapse.go).  keyStr models keyToString (fmt.Sprintf of the
key; the identity on strings).  policy is the one policy object shared by
all shards, held here so that its single mutable state is explicit. -/
structure Cache (σ K V : Type) where
  shards : List (Shard K V)
  similarity : Option (K → K → Rat)
  threshold : Rat
  options : Options σ K
  policy : Pol σ K
  keyStr : K → String

/-- A zero-valued shard used only as the out-of-range default of list
indexing; never reached while the shard vector is nonempty. -/
def defaultShard (K V : Type) : Shard K V :=
  newShard K V 0 none 0 0 false

/-- New (synapse.go): fold the options over the defaults, compute
per-shard capacity max(1, MaxSize / NumShards) and build the shard
vector.  The similarity function is nil at construction (New passes the
not-yet-assigned c.similarity into every shard). -/
def New (σ K V : Type) (keyStr : K → String) (opts : List (CacheOption σ K)) : Cache σ K V :=
  let options := opts.foldl (fun o f => f o) (defaultOptions σ K)
  let perShard0 := options.MaxSize.toNat / options.NumShards.toNat
  let maxSizePerShard := if perShard0 = 0 then 1 else perShard0
  { shards := List.replicate options.NumShards.toNat
      (newShard K V maxSizePerShard none options.SimilarityThreshold options.TTL options.EnableStats)
    similarity := none
    threshold := options.SimilarityThreshold
    options := options
    policy := options.EvictionPolicy
    keyStr := keyStr }

/-- WithSimilarity (synapse.go): set the function on the cache and every shard. -/
def Cache.withSimilarity {σ K V : Type} (c : Cache σ K V) (fn : K → K → Rat) : Cache σ K V :=
  { c with similarity := some fn
           shards := c.shards.map (fun s => { s with similarity := some fn }) }

/-- getShard routing: FNV-1a of the stringified key, modulo the shard count. -/
def Cache.shardIdx {σ K V : Type} (c : Cache σ K V) (key : K) : Nat :=
  fnv1a (strBytes (c.keyStr key)) % c.shards.length

/-- Cache.Get: route to one shard. -/
def Cache.get {σ K V : Type} [DecidableEq K] (c : Cache σ K V) (ctx : Ctx) (now : Int) (key : K) : Option V × Cache σ K V :=
  let i := c.shardIdx key
  let s := c.shards.getD i (defaultShard K V)
  let r := s.get c.policy ctx now key
  (r.1, { c with shards := c.shards.set i r.2.1, policy := r.2.2 })

/-- Cache.Set: route to one shard. -/
def Cache.set {σ K V : Type} [DecidableEq K] (c : Cache σ K V) (ctx : Ctx) (now : Int) (key : K) (value : V) : Option GoError × Cache σ K V :=
  let i := c.shardIdx key
  let s := c.shards.getD i (defaultShard K V)
  let r := s.set c.policy ctx now key value
  (r.1, { c with shards := c.shards.set i r.2.1, policy := r.2.2 })

/-- Cache.Delete: route to one shard. -/
def Cache.delete {σ K V : Type} [DecidableEq K] (c : Cache σ K V) (ctx : Ctx) (key : K) : Bool × Cache σ K V :=
  let i := c.shardIdx key
  let s := c.shards.getD i (defaultShard K V)
  let r := s.delete c.policy ctx key
  (r.1, { c with shards := c.shards.set i r.2.1, policy := r.2.2 })

/-- The shard loop of Cache.GetSimilar: query every shard in index order,
keep a strictly improving running best (so earlier shards win ties). -/
def simGo {σ K V : Type} [DecidableEq K] (ctx : Ctx) (now : Int) (q : K) :
    List (Shard K V) → Pol σ K → Option (SimCand K V) → Option (SimCand K V) × List (Shard K V) × Pol σ K
  | [], pol, best => (best, [], pol)
  | s :: rest, pol, best =>
    let r := s.getSimilar pol ctx now q
    let t := simGo ctx now q rest r.2.2 (mergeB best r.1)
    (t.1, r.2.1 :: t.2.1, t.2.2)

/-- Cache.GetSimilar (synapse.go): fan out over all shards.  With a
cancelled context every shard reports not-found without effect and the
between-shard poll abandons with zeros, which collapses to the early
return written here. -/
def Cache.getSimilar {σ K V : Type} [DecidableEq K] (c : Cache σ K V) (ctx : Ctx) (now : Int) (q : K) : Option (SimCand K V) × Cache σ K V :=
  if ctx.cancelled then (none, c)
  else
    let t := simGo ctx now q c.shards c.policy none
    (t.1, { c with shards := t.2.1, policy := t.2.2 })

/-- Cache.Len: sum of the shard sizes. -/
def Cache.len {σ K V : Type} (c : Cache σ K V) : Nat :=
  (c.shards.map (fun s => s.data.length)).sum

/-- Cache.Stats: zero snapshot when stats are disabled, else the
field-wise sum over the shards. -/
def Cache.cacheStats {σ K V : Type} (c : Cache σ K V) : Stats :=
  if c.options.EnableStats = false then newShardStats
  else
    { hits := (c.shards.map (fun s => s.stats.hits)).sum
      misses := (c.shards.map (fun s => s.stats.misses)).sum
      sets := (c.shards.map (fun s => s.stats.sets)).sum
      deletes := (c.shards.map (fun s => s.stats.deletes)).sum
      similarSearches := (c.shards.map (fun s => s.stats.similarSearches)).sum
      similarHits := (c.shards.map (fun s => s.stats.similarHits)).sum
      evictions := (c.shards.map (fun s => s.stats.evictions)).sum
      expired := (c.shards.map (fun s => s.stats.expired)).sum }

/-- The per-shard eligible candidates of a whole-cache similarity search,
in shard order then insertion order. -/
def cacheElig {σ K V : Type} [DecidableEq K] (c : Cache σ K V) (ctx : Ctx) (now : Int) (q : K) : List (SimCand K V) :=
  (c.shards.map (fun s => shardElig s ctx now q)).flatten

/-- All candidates (no threshold filter), for stating what the spec calls
eligibility without the positivity requirement. -/
def cacheCands {σ K V : Type} [DecidableEq K] (c : Cache σ K V) (ctx : Ctx) (now : Int) (q : K) : List (SimCand K V) :=
  (c.shards.map (fun s => shardCands s ctx now q)).flatten

/-- A workload operation, for invariants quantified over arbitrary
operation mixes. -/
inductive Op (K V : Type) where
  | opGet (ctx : Ctx) (now : Int) (key : K)
  | opSet (ctx : Ctx) (now : Int) (key : K) (value : V)
  | opGetSimilar (ctx : Ctx) (now : Int) (q : K)
  | opDelete (ctx : Ctx) (key : K)

/-- Run one workload operation, keeping only the state. -/
def stepOp {σ K V : Type} [DecidableEq K] (c : Cache σ K V) : Op K V → Cache σ K V
  | Op.opGet ctx now key => (c.get ctx now key).2
  | Op.opSet ctx now key v => (c.set ctx now key v).2
  | Op.opGetSimilar ctx now q => (c.getSimilar ctx now q).2
  | Op.opDelete ctx key => (c.delete ctx key).2

/-- Run a workload. -/
def runOps {σ K V : Type} [DecidableEq K] (c : Cache σ K V) (ops : List (Op K V)) : Cache σ K V :=
  ops.foldl stepOp c

/-- Run a sequence of sets under one context and clock, keeping the state. -/
def setAll {σ K V : Type} [DecidableEq K] (c : Cache σ K V) (ctx : Ctx) (now : Int) (l : List (K × V)) : Cache σ K V :=
  l.foldl (fun c2 p => (c2.set ctx now p.1 p.2).2) c

/-- Structural shard invariant for the accounting argument: stats are
being recorded, the map is aligned with the key list (same keys, same
order — every operation preserves this), and the number of live entries
plus recorded deletes and evictions never exceeds recorded sets. -/
def ShardOk {K V : Type} (s : Shard K V) : Prop :=
  s.enableStats = true ∧
  s.data.map Prod.fst = s.keys ∧
  s.data.length + s.stats.deletes + s.stats.evictions ≤ s.stats.sets

/-- Cache-level invariant: no eviction policy attached (the FIFO fallback
is in effect), stats enabled, and every shard structurally sound.  A
cache built by New with stats on and no eviction option satisfies this. -/
def CacheOk {σ K V : Type} (c : Cache σ K V) : Prop :=
  c.policy = none ∧ c.options.EnableStats = true ∧ ∀ s ∈ c.shards, ShardOk s

/-- CombinedPolicy (eviction/policy.go).  The Go struct holds the
sub-policy objects and the normalized weights; the sub-policies' internal
states are made explicit in the states field.  All sub-policies share one
state type here (Go erases their types behind the interface). -/
structure CombinedPolicy (σ K : Type) where
  policies : List (PolicySpec σ K)
  states : List σ
  weights : List Rat

/-- NewCombinedPolicy: normalize the weights to w / sum(w).  (In Go with
float64 a zero sum yields Inf/NaN weights; over the rationals division by
zero yields 0 — under both semantics the normalized weights then fail to
sum to 1.) -/
def NewCombinedPolicy {σ K : Type} (policies : List (PolicySpec σ K × σ)) (weights : List Rat) : CombinedPolicy σ K :=
  let sum := weights.sum
  { policies := policies.map Prod.fst
    states := policies.map Prod.snd
    weights := weights.map (fun w => w / sum) }

/-- CombinedPolicy.OnAccess: fan out to every sub-policy in list order
(each sub-policy mutates only its own state, rendered as zipWith). -/
def CombinedPolicy.onAccess {σ K : Type} (c : CombinedPolicy σ K) (k : K) : CombinedPolicy σ K :=
  { c with states := List.zipWith (fun p st => p.onAccess k st) c.policies c.states }

/-- CombinedPolicy.OnAdd: fan out to every sub-policy in list order. -/
def CombinedPolicy.onAdd {σ K : Type} (c : CombinedPolicy σ K) (k : K) (ac : Nat) (ca aa : Int) : CombinedPolicy σ K :=
  { c with states := List.zipWith (fun p st => p.onAdd k ac ca aa st) c.policies c.states }

/-- CombinedPolicy.OnRemove: fan out to every sub-policy in list order. -/
def CombinedPolicy.onRemove {σ K : Type} (c : CombinedPolicy σ K) (k : K) : CombinedPolicy σ K :=
  { c with states := List.zipWith (fun p st => p.onRemove k st) c.policies c.states }

/-- CombinedPolicy.SelectVictim: delegate to sub-policy 0. -/
def CombinedPolicy.selectVictim {σ K : Type} (c : CombinedPolicy σ K) : Option K :=
  match c.policies, c.states with
  | p :: _, st :: _ => p.selectVictim st
  | _, _ => none

/-- A policy that tracks nothing and never proposes a victim; a legal
EvictionPolicy implementation used for concrete instantiations. -/
def trivialPolicy (K : Type) : PolicySpec Nat K :=
  { onAccess := fun _ s => s
    onAdd := fun _ _ _ _ s => s
    onRemove := fun _ s => s
    selectVictim := fun _ => none
    polLen := fun _ => 0 }

/-- A similarity function that reports every pair maximally dissimilar;
total with range inside the unit interval, hence a legal SimilarityFunc. -/
def zeroSim (K : Type) : K → K → Rat :=
  fun _ _ => 0

/-- Fresh string cache with default options and no policy. -/
def cacheD : Cache Unit String String :=
  New Unit String String id []

/-- A non-cancelled context in namespace a. -/
def ctxA : Ctx := ⟨false, "a"⟩

/-- A non-cancelled context in namespace b. -/
def ctxB : Ctx := ⟨false, "b"⟩

/-- Scenario state: set("x","A") under namespace a. -/
def cacheE1 : Cache Unit String String := (cacheD.set ctxA 0 "x" "A").2

/-- Scenario state: then set("x","B") under namespace b. -/
def cacheE2 : Cache Unit String String := (cacheE1.set ctxB 0 "x" "B").2

/-- Cache with threshold 0 and an (everywhere-zero) similarity function
bound, holding one entry; exercises the getSimilar boundary at score 0. -/
def cacheT0 : Cache Unit String String :=
  (((New Unit String String id [WithThreshold 0]).withSimilarity (zeroSim String)).set ⟨false, ""⟩ 0 "a" "va").2

/-- Two-shard cache, total capacity 2 (one per shard), shared LRU policy,
stats on: the configuration of the accounting counterexample. -/
def cacheLRU2 : Cache (LRUState String) String String :=
  New (LRUState String) String String id
    [WithShards 2, WithMaxSize 2, WithStats true, WithEviction (lruPolicy String, newLRU 100)]

/-- The accounting scenario: keys b, a, c.  Under FNV-1a mod 2, "b" routes
to shard 1 while "a" and "c" route to shard 0; the third set finds shard 0
full, asks the shared LRU for a victim and gets "b" — a key of the other
shard — so an eviction is recorded while no entry leaves shard 0. -/
def cacheLRU2Run : Cache (LRUState String) String String :=
  setAll cacheLRU2 ⟨false, ""⟩ 0 [("b", "1"), ("a", "2"), ("c", "3")]

/-- Fresh default cache with stats enabled and no eviction policy. -/
def cacheStatsD : Cache Unit String String :=
  New Unit String String id [WithStats true]

/-- A small mixed workload for the accounting witness. -/
def opsW : List (Op String String) :=
  [Op.opSet ⟨false, ""⟩ 0 "a" "1",
   Op.opSet ⟨false, "t"⟩ 0 "b" "2",
   Op.opDelete ⟨false, ""⟩ "a",
   Op.opGetSimilar ⟨false, ""⟩ 0 "q",
   Op.opGet ⟨false, ""⟩ 0 "b"]

/-- Two-shard cache with total capacity 1 (the per-shard quota rounds up
to one entry per shard) and no policy. -/
def cacheTwo1 : Cache Unit String String :=
  New Unit String String id [WithShards 2, WithMaxSize 1]

/-- Two distinct keys on distinct shards pushed into cacheTwo1. -/
def cacheTwo1Run : Cache Unit String String :=
  setAll cacheTwo1 ⟨false, ""⟩ 0 [("a", "1"), ("b", "2")]

/-- Single-shard cache with total capacity M and a fresh LRU policy: the
configuration of the amended capacity claim. -/
def lruCache (M : Nat) (mz : Int) : Cache (LRUState String) String String :=
  New (LRUState String) String String id
    [WithShards 1, WithMaxSize (M : Int), WithEviction (lruPolicy String, newLRU mz)]

/-- The options lruCache resolves to. -/
def c4opts (M : Nat) (mz : Int) : Options (LRUState String) String :=
  { NumShards := 1
    MaxSize := (M : Int)
    SimilarityThreshold := 0.8
    EvictionPolicy := some (lruPolicy String, newLRU mz)
    TTL := 0
    EnableStats := false }

/-- The entry a set stores for a pair under the fixed context and clock. -/
def entPair (ns : String) (now : Int) (p : String × String) : String × Entry String String :=
  (p.1, newEntry p.1 p.2 0 ns now)

/-- The shard of lruCache after the kept pairs have been inserted in order. -/
def c4shard (M : Nat) (ns : String) (now : Int) (kept : List (String × String)) : Shard String String :=
  { data := kept.map (entPair ns now)
    keys := kept.map Prod.fst
    maxSize := M
    similarity := none
    threshold := 0.8
    ttl := 0
    stats := newShardStats
    enableStats := false }

/-- The shared LRU state after the kept pairs have been inserted in
order and only sets have run: most recent first, i.e. the reversed key
list. -/
def c4pol (mz : Int) (kept : List (String × String)) : Pol (LRUState String) String :=
  some (lruPolicy String, ⟨(kept.map Prod.fst).reverse, mz⟩)

/-- The lruCache state determined by the kept pairs. -/
def c4state (M : Nat) (mz : Int) (ns : String) (now : Int) (kept : List (String × String)) :
    Cache (LRUState String) String String :=
  { shards := [c4shard M ns now kept]
    similarity := none
    threshold := 0.8
    options := c4opts M mz
    policy := c4pol mz kept
    keyStr := id }

/-- How one further distinct-key set evolves the kept pairs: append when
below capacity, else drop the oldest and append. -/
def keptNext (M : Nat) (kept : List (String × String)) (p : String × String) :
    List (String × String) :=
  if kept.length < M then kept ++ [p] else kept.tail ++ [p]

/-- The kept pairs after a whole sequence of sets. -/
def foldKept (M : Nat) (l : List (String × String)) : List (String × String) :=
  l.foldl (keptNext M) []

/-- A concrete stored entry for the overwrite-frame witness. -/
def entryW : Entry String String := newEntry "x" "old" 5 "nsa" 10

/-- A one-entry shard for the overwrite-frame witness. -/
def shardW : Shard String String :=
  { data := [("x", entryW)]
    keys := ["x"]
    maxSize := 10
    similarity := none
    threshold := 0.8
    ttl := 5
    stats := newShardStats
    enableStats := true }

/-
Helper lemmas.
-/

/-- Writing back the element just read leaves a list unchanged. -/
theorem set_getD_self {α : Type} (l : List α) (i : Nat) (d : α) :
    l.set i (l[i]?.getD d) = l := by
  induction l generalizing i with
  | nil => simp
  | cons a t ih =>
    cases i with
    | zero => simp
    | succ n => simpa using ih n

/-- Reading an index just written returns the written element. -/
theorem getD_set_self {α : Type} (l : List α) (i : Nat) (y d : α) (h : i < l.length) :
    ((l.set i y)[i]?).getD d = y := by
  induction l generalizing i with
  | nil => simp at h
  | cons a t ih =>
    cases i with
    | zero => simp
    | succ n => simpa using ih n (by simpa using h)

/-- getD form of getD_set_self. -/
theorem listGetD_set_self {α : Type} (l : List α) (i : Nat) (y d : α) (h : i < l.length) :
    (l.set i y).getD i d = y := by
  rw [List.getD, List.get?_eq_getElem?]
  exact getD_set_self l i y d h

/-- recordIf only touches the stats field: data unchanged. -/
theorem recordIf_data {K V : Type} (s : Shard K V) (f : ShardStats → ShardStats) :
    (recordIf s f).data = s.data := by
  unfold recordIf; split <;> rfl

/-- recordIf only touches the stats field: keys unchanged. -/
theorem recordIf_keys {K V : Type} (s : Shard K V) (f : ShardStats → ShardStats) :
    (recordIf s f).keys = s.keys := by
  unfold recordIf; split <;> rfl

/-- recordIf only touches the stats field: ttl unchanged. -/
theorem recordIf_ttl {K V : Type} (s : Shard K V) (f : ShardStats → ShardStats) :
    (recordIf s f).ttl = s.ttl := by
  unfold recordIf; split <;> rfl

/-- Replacing an absent key is a no-op lookup-wise. -/
theorem mapFind_mapReplace_self {K V : Type} [DecidableEq K]
    (d : List (K × Entry K V)) (k : K) (e e2 : Entry K V) (h : mapFind d k = some e) :
    mapFind (mapReplace d k e2) k = some e2 := by
  induction d with
  | nil => simp [mapFind] at h
  | cons p t ih =>
    obtain ⟨a, ea⟩ := p
    by_cases hak : a = k
    · subst hak; simp [mapFind, mapReplace]
    · simp [mapFind, mapReplace, hak] at h ⊢
      exact ih h

/-- Replacement under one key does not affect other keys. -/
theorem mapFind_mapReplace_ne {K V : Type} [DecidableEq K]
    (d : List (K × Entry K V)) (k k2 : K) (e2 : Entry K V) (h : k2 ≠ k) :
    mapFind (mapReplace d k e2) k2 = mapFind d k2 := by
  induction d with
  | nil => rfl
  | cons p t ih =>
    obtain ⟨a, ea⟩ := p
    by_cases hak : a = k
    · have hak2 : a ≠ k2 := fun h2 => h (h2 ▸ hak)
      simp only [mapReplace, if_pos hak, mapFind, if_neg hak2]
    · simp only [mapReplace, if_neg hak, mapFind]
      split
      · rfl
      · exact ih

/-- Erasure never makes an absent key present. -/
theorem mapFind_mapErase_none {K V : Type} [DecidableEq K]
    (d : List (K × Entry K V)) (k k0 : K) (h : mapFind d k = none) :
    mapFind (mapErase d k0) k = none := by
  induction d with
  | nil => rfl
  | cons p t ih =>
    obtain ⟨a, ea⟩ := p
    by_cases hak : a = k0
    · subst hak
      simp only [mapFind] at h
      split at h
      · exact absurd h (by simp)
      · simpa [mapErase] using h
    · simp only [mapFind] at h
      split at h
      · exact absurd h (by simp)
      · simp only [mapErase, if_neg hak, mapFind]
        rename_i hk
        simp only [if_neg hk]
        exact ih h

/-- Appending a fresh binding is found after any lookup miss. -/
theorem mapFind_append_fresh {K V : Type} [DecidableEq K]
    (d : List (K × Entry K V)) (k : K) (e : Entry K V) (h : mapFind d k = none) :
    mapFind (d ++ [(k, e)]) k = some e := by
  induction d with
  | nil => simp [mapFind]
  | cons p t ih =>
    obtain ⟨a, ea⟩ := p
    simp only [mapFind] at h ⊢
    split at h
    · exact absurd h (by simp)
    · rename_i hk
      simp only [List.cons_append, mapFind, if_neg hk]
      exact ih h

/-- The error component of shard.evict is always nil, as in the source. -/
theorem evict_fst_none {σ K V : Type} [DecidableEq K] (s : Shard K V) (pol : Pol σ K) :
    (Shard.evict s pol).1 = none := by
  rcases pol with _ | ⟨p, pst⟩
  · simp only [Shard.evict]
    cases s.keys <;> rfl
  · simp only [Shard.evict]
    cases h : p.selectVictim pst <;> simp [h]

/-- The stats-record step of shard.set (both branches bump sets only). -/
theorem shardSet_fst {σ K V : Type} [DecidableEq K]
    (s : Shard K V) (pol : Pol σ K) (ctx : Ctx) (now : Int) (k : K) (v : V) :
    (Shard.set s pol ctx now k v).1 =
      if ctx.cancelled then some GoError.contextCanceled else none := by
  unfold Shard.set
  by_cases hc : ctx.cancelled
  · simp [hc]
  · simp only [hc, Bool.false_eq_true, if_false, if_neg]
    cases hm : mapFind s.data k with
    | some e => simp
    | none =>
      have hstep : (if 0 < s.maxSize ∧ s.maxSize ≤ s.data.length
          then Shard.evict s pol else (none, s, pol)).1 = none := by
        split
        · exact evict_fst_none s pol
        · rfl
      rcases h2 : (if 0 < s.maxSize ∧ s.maxSize ≤ s.data.length
          then Shard.evict s pol else (none, s, pol)) with ⟨oe, s1, pol1⟩
      rw [h2] at hstep
      simp only at hstep
      subst hstep
      simp

/-
C5 — pre-cancelled context: every operation reports failure and the cache
state is unchanged.
-/

/-- C5: with a context already cancelled when the operation runs, get
returns (zero, false), get_similar returns found=false, delete returns
false, set returns the cancellation error, and every operation — in
particular set and delete — leaves the entire cache state (shard maps,
key lists, entries, policy state, statistics) unchanged. -/
theorem C5_cancelled_noop {σ K V : Type} [DecidableEq K]
    (c : Cache σ K V) (ns : String) (now : Int) (k q : K) (v : V) :
    c.get ⟨true, ns⟩ now k = (none, c) ∧
    c.getSimilar ⟨true, ns⟩ now q = (none, c) ∧
    c.delete ⟨true, ns⟩ k = (false, c) ∧
    c.set ⟨true, ns⟩ now k v = (some GoError.contextCanceled, c) := by
  refine ⟨?_, ?_, ?_, ?_⟩
  · simp [Cache.get, Shard.get, set_getD_self]
  · simp [Cache.getSimilar]
  · simp [Cache.delete, Shard.delete, set_getD_self]
  · simp [Cache.set, Shard.set, set_getD_self]

/-
C8 — set errs exactly on observed cancellation, with the context's error;
overflow tolerated by a victimless eviction is never reported.
-/

/-- C8: Cache.Set returns the context's cancellation error when the
cancellation poll observes a cancelled context, and nil in every other
case — whatever the policy does, including refusing to select a victim
(Shard.evict's error result is always nil), so capacity overflow is not
reported. -/
theorem C8_set_error_iff_cancelled {σ K V : Type} [DecidableEq K]
    (c : Cache σ K V) (cancelled : Bool) (ns : String) (now : Int) (k : K) (v : V) :
    (c.set ⟨cancelled, ns⟩ now k v).1 =
      if cancelled then some GoError.contextCanceled else none := by
  have h := shardSet_fst (c.shards.getD (c.shardIdx k) (defaultShard K V)) c.policy
    ⟨cancelled, ns⟩ now k v
  simpa [Cache.set] using h

/-
C7 — option validation.
-/

/-- C7 counterexample: the claim says a ttl value is applied only when
it is at least zero and that an invalid value is ignored, retaining the
default 0; but WithTTL has no validation, so applying WithTTL(-1) to the
defaults stores -1 instead of retaining 0. -/
theorem C7_options_counterexample :
    ((@WithTTL Unit String (-1)) (defaultOptions Unit String)).TTL = -1 ∧
    (defaultOptions Unit String).TTL = 0 := by
  exact ⟨rfl, rfl⟩

/-- C7 amended: shards, max_size and threshold are validated exactly as
claimed (accepted iff 1 <= n <= 256, size > 0, 0 <= t <= 1, otherwise
silently ignored retaining the previous value), and the defaults are
shards 16, max_size 1000, threshold 0.8, ttl 0, stats disabled; but the
ttl option is stored unconditionally — a negative duration is not
ignored (entries built under a non-positive ttl simply never expire). -/
theorem C7_options_amended {σ K : Type} (n size : Int) (t : Rat) (d : Int) (b : Bool)
    (o : Options σ K) :
    (WithShards n o).NumShards = (if 0 < n ∧ n ≤ 256 then n else o.NumShards) ∧
    (WithShards n o).MaxSize = o.MaxSize ∧
    (WithShards n o).TTL = o.TTL ∧
    (WithMaxSize size o).MaxSize = (if 0 < size then size else o.MaxSize) ∧
    (WithMaxSize size o).NumShards = o.NumShards ∧
    (WithThreshold t o).SimilarityThreshold =
      (if 0 ≤ t ∧ t ≤ 1 then t else o.SimilarityThreshold) ∧
    (WithTTL d o).TTL = d ∧
    (WithStats b o).EnableStats = b ∧
    (defaultOptions σ K).NumShards = 16 ∧
    (defaultOptions σ K).MaxSize = 1000 ∧
    (defaultOptions σ K).SimilarityThreshold = 0.8 ∧
    (defaultOptions σ K).TTL = 0 ∧
    (defaultOptions σ K).EnableStats = false := by
  refine ⟨?_, ?_, ?_, ?_, ?_, ?_, rfl, rfl, rfl, rfl, rfl, rfl, rfl⟩
  · unfold WithShards; split <;> rfl
  · unfold WithShards; split <;> rfl
  · unfold WithShards; split <;> rfl
  · unfold WithMaxSize; split <;> rfl
  · unfold WithMaxSize; split <;> rfl
  · unfold WithThreshold; split <;> rfl

/-
C9 — combined policy.
-/

/-- C9 counterexample: with sub-policy weights 1 and -1 (equal-length,
non-empty lists), the weights sum to zero and normalization divides by
zero, so the stored weights do not sum to 1.  (In Go float64 arithmetic
the stored weights are plus and minus infinity and their sum is NaN; over
the rationals division by zero gives 0 and the sum is 0 — under both
semantics the claimed sum-to-1 fails.) -/
theorem C9_combined_counterexample :
    (NewCombinedPolicy [(trivialPolicy String, 0), (trivialPolicy String, 0)]
      [1, -1]).weights.sum ≠ 1 := by
  norm_num [NewCombinedPolicy]

/-- Weight normalization distributes over the list sum. -/
theorem sum_map_div (l : List Rat) (s : Rat) :
    (l.map (fun w => w / s)).sum = l.sum / s := by
  induction l with
  | nil => simp
  | cons a t ih => simp [ih, add_div]

/-- C9 amended: for equal-length non-empty sub-policy and weight lists
whose weight sum is nonzero, the stored weights are normalized to sum
to 1; each callback fans out to every sub-policy in list order (each
acting on its own state), and select_victim returns exactly sub-policy
0's choice on sub-policy 0's state. -/
theorem C9_combined_amended {σ K : Type}
    (ps : List (PolicySpec σ K × σ)) (ws : List Rat)
    (hlen : ps.length = ws.length) (hne : ps ≠ []) (hsum : ws.sum ≠ 0)
    (k : K) (ac : Nat) (ca aa : Int)
    (p0 : PolicySpec σ K) (st0 : σ) (tl : List (PolicySpec σ K × σ))
    (hps : ps = (p0, st0) :: tl) :
    (NewCombinedPolicy ps ws).weights.sum = 1 ∧
    ((NewCombinedPolicy ps ws).onAccess k).states =
      List.zipWith (fun p st => p.onAccess k st)
        (NewCombinedPolicy ps ws).policies (NewCombinedPolicy ps ws).states ∧
    ((NewCombinedPolicy ps ws).onAdd k ac ca aa).states =
      List.zipWith (fun p st => p.onAdd k ac ca aa st)
        (NewCombinedPolicy ps ws).policies (NewCombinedPolicy ps ws).states ∧
    ((NewCombinedPolicy ps ws).onRemove k).states =
      List.zipWith (fun p st => p.onRemove k st)
        (NewCombinedPolicy ps ws).policies (NewCombinedPolicy ps ws).states ∧
    (NewCombinedPolicy ps ws).selectVictim = p0.selectVictim st0 := by
  refine ⟨?_, rfl, rfl, rfl, ?_⟩
  · unfold NewCombinedPolicy
    simp only
    rw [sum_map_div]
    exact div_self hsum
  · subst hps
    rfl

/-- C9 witness: one trivial sub-policy with weight 2. -/
theorem C9_combined_witness :
    (NewCombinedPolicy [(trivialPolicy String, 0)] [2]).weights.sum = 1 ∧
    ((NewCombinedPolicy [(trivialPolicy String, 0)] [2]).onAccess "a").states =
      List.zipWith (fun p st => p.onAccess "a" st)
        (NewCombinedPolicy [(trivialPolicy String, 0)] [2]).policies
        (NewCombinedPolicy [(trivialPolicy String, 0)] [2]).states ∧
    ((NewCombinedPolicy [(trivialPolicy String, 0)] [2]).onAdd "a" 0 0 0).states =
      List.zipWith (fun p st => p.onAdd "a" 0 0 0 st)
        (NewCombinedPolicy [(trivialPolicy String, 0)] [2]).policies
        (NewCombinedPolicy [(trivialPolicy String, 0)] [2]).states ∧
    ((NewCombinedPolicy [(trivialPolicy String, 0)] [2]).onRemove "a").states =
      List.zipWith (fun p st => p.onRemove "a" st)
        (NewCombinedPolicy [(trivialPolicy String, 0)] [2]).policies
        (NewCombinedPolicy [(trivialPolicy String, 0)] [2]).states ∧
    (NewCombinedPolicy [(trivialPolicy String, 0)] [2]).selectVictim =
      (trivialPolicy String).selectVictim 0 :=
  C9_combined_amended [(trivialPolicy String, 0)] [2] rfl (by simp) (by norm_num)
    "a" 0 0 0 (trivialPolicy String) 0 [] rfl

/-
C10 — overwrite frame.
-/

/-- C10: when the key is already present, set replaces only the entry
value and touches it (accessed_at := now, access_count incremented); the
stored key, created_at, expires_at, metadata and — in particular — the
namespace captured at creation are unchanged, whatever namespace the
overwriting context carries, and other keys are untouched, as is the key
list. -/
theorem C10_overwrite_frame {σ K V : Type} [DecidableEq K]
    (s : Shard K V) (pol : Pol σ K) (ns : String) (now : Int) (k : K) (v : V)
    (e : Entry K V) (he : mapFind s.data k = some e) :
    (Shard.set s pol ⟨false, ns⟩ now k v).1 = none ∧
    mapFind (Shard.set s pol ⟨false, ns⟩ now k v).2.1.data k =
      some { key := e.key, value := v, createdAt := e.createdAt,
             accessedAt := now, accessCount := e.accessCount + 1,
             expiresAt := e.expiresAt, metadata := e.metadata,
             nspace := e.nspace } ∧
    (Shard.set s pol ⟨false, ns⟩ now k v).2.1.keys = s.keys ∧
    (∀ k2, k2 ≠ k →
      mapFind (Shard.set s pol ⟨false, ns⟩ now k v).2.1.data k2 = mapFind s.data k2) := by
  have hred : Shard.set s pol ⟨false, ns⟩ now k v =
      (none,
       recordIf { s with data := mapReplace s.data k (({ e with value := v }).touch now) }
         (fun st => { st with sets := st.sets + 1 }),
       polOnAccess pol k) := by
    unfold Shard.set
    rw [if_neg (by simp)]
    rw [he]
  rw [hred]
  refine ⟨rfl, ?_, ?_, ?_⟩
  · simp only [recordIf_data]
    rw [mapFind_mapReplace_self s.data k e _ he]
    rfl
  · simp only [recordIf_keys]
  · intro k2 h2
    simp only [recordIf_data]
    exact mapFind_mapReplace_ne s.data k k2 _ h2

/-- C10 witness: overwrite a concrete entry created at time 10 with ttl 5
in namespace nsa, at time 20 from a context in namespace b. -/
theorem C10_overwrite_frame_witness :
    (Shard.set shardW (none : Pol Unit String) ⟨false, "b"⟩ 20 "x" "new").1 = none ∧
    mapFind (Shard.set shardW (none : Pol Unit String) ⟨false, "b"⟩ 20 "x" "new").2.1.data "x" =
      some { key := "x", value := "new", createdAt := 10, accessedAt := 20,
             accessCount := 1, expiresAt := some 15, metadata := [],
             nspace := "nsa" } ∧
    (Shard.set shardW (none : Pol Unit String) ⟨false, "b"⟩ 20 "x" "new").2.1.keys = shardW.keys ∧
    (∀ k2, k2 ≠ "x" →
      mapFind (Shard.set shardW (none : Pol Unit String) ⟨false, "b"⟩ 20 "x" "new").2.1.data k2 =
        mapFind shardW.data k2) :=
  C10_overwrite_frame shardW none "b" 20 "x" "new" entryW rfl

/-
C3 — round-trip.
-/

/-- Eviction only removes bindings: an absent key stays absent. -/
theorem evict_mapFind_none {σ K V : Type} [DecidableEq K]
    (s : Shard K V) (pol : Pol σ K) (k : K) (h : mapFind s.data k = none) :
    mapFind (Shard.evict s pol).2.1.data k = none := by
  rcases pol with _ | ⟨p, pst⟩
  · simp only [Shard.evict]
    cases hk : s.keys with
    | nil => simpa using h
    | cons k0 t =>
      simp only [recordIf_data]
      exact mapFind_mapErase_none s.data k k0 h
  · simp only [Shard.evict]
    cases hv : p.selectVictim pst with
    | none => simpa [hv] using h
    | some k0 =>
      simp only [hv, recordIf_data]
      exact mapFind_mapErase_none s.data k k0 h

/-- Eviction does not change the configured ttl. -/
theorem evict_ttl {σ K V : Type} [DecidableEq K]
    (s : Shard K V) (pol : Pol σ K) :
    (Shard.evict s pol).2.1.ttl = s.ttl := by
  rcases pol with _ | ⟨p, pst⟩
  · simp only [Shard.evict]
    cases s.keys with
    | nil => rfl
    | cons k0 t => exact recordIf_ttl _ _
  · simp only [Shard.evict]
    cases hv : p.selectVictim pst with
    | none => rfl
    | some k0 => exact recordIf_ttl _ _

/-- Reduction of shard.set on a fresh key: the eviction step yields some
intermediate shard (with the key still absent and the ttl unchanged) and
the new entry is appended to it. -/
theorem shardSet_fresh {σ K V : Type} [DecidableEq K]
    (s : Shard K V) (pol : Pol σ K) (ns : String) (now : Int) (k : K) (v : V)
    (hm : mapFind s.data k = none) :
    ∃ (s1 : Shard K V) (pol1 : Pol σ K),
      mapFind s1.data k = none ∧ s1.ttl = s.ttl ∧
      Shard.set s pol ⟨false, ns⟩ now k v =
        (none,
         recordIf
           { s1 with
               data := s1.data ++ [(k, newEntry k v s1.ttl ns now)]
               keys := s1.keys ++ [k] }
           (fun st => { st with sets := st.sets + 1 }),
         polOnAdd pol1 k (newEntry k v s1.ttl ns now).accessCount
           (newEntry k v s1.ttl ns now).createdAt (newEntry k v s1.ttl ns now).accessedAt) := by
  rcases hstep : (if 0 < s.maxSize ∧ s.maxSize ≤ s.data.length
      then Shard.evict s pol else (none, s, pol)) with ⟨oe, s1, pol1⟩
  have hoe : oe = none := by
    have h1 : (if 0 < s.maxSize ∧ s.maxSize ≤ s.data.length
        then Shard.evict s pol else (none, s, pol)).1 = none := by
      split
      · exact evict_fst_none s pol
      · rfl
    rw [hstep] at h1
    exact h1
  subst hoe
  have habs : mapFind s1.data k = none := by
    by_cases hcond : 0 < s.maxSize ∧ s.maxSize ≤ s.data.length
    · have := evict_mapFind_none s pol k hm
      rw [if_pos hcond] at hstep
      rw [hstep] at this
      exact this
    · rw [if_neg hcond] at hstep
      cases hstep
      exact hm
  have httl : s1.ttl = s.ttl := by
    by_cases hcond : 0 < s.maxSize ∧ s.maxSize ≤ s.data.length
    · have := evict_ttl s pol
      rw [if_pos hcond] at hstep
      rw [hstep] at this
      exact this
    · rw [if_neg hcond] at hstep
      cases hstep
      rfl
  refine ⟨s1, pol1, habs, httl, ?_⟩
  unfold Shard.set
  rw [if_neg (by simp), hm, hstep]

/-- A freshly created entry is never expired at its creation instant. -/
theorem newEntry_not_expired {K V : Type} (k : K) (v : V) (ttl : Int) (ns : String) (now : Int) :
    (newEntry k v ttl ns now).isExpired now = false := by
  have hx : (newEntry k v ttl ns now).expiresAt = if 0 < ttl then some (now + ttl) else none := rfl
  unfold Entry.isExpired
  rw [hx]
  by_cases h : 0 < ttl
  · rw [if_pos h]
    show decide (now + ttl < now) = false
    simp only [decide_eq_false_iff_not, not_lt]
    omega
  · rw [if_neg h]

/-- shard.get returns the stored value for a present, namespace-matching,
unexpired key. -/
theorem shardGet_hit {σ K V : Type} [DecidableEq K]
    (s : Shard K V) (pol : Pol σ K) (ns : String) (now : Int) (k : K) (e : Entry K V)
    (hm : mapFind s.data k = some e)
    (hns : ns = "" ∨ e.nspace = ns)
    (hexp : e.isExpired now = false) :
    (Shard.get s pol ⟨false, ns⟩ now k).1 = some e.value := by
  have hcond : ¬((⟨false, ns⟩ : Ctx).nspace ≠ "" ∧ e.nspace ≠ (⟨false, ns⟩ : Ctx).nspace) := by
    rcases hns with h | h <;> simp [h]
  unfold Shard.get
  rw [if_neg (by simp), hm]
  simp [hcond, hexp]

/-- C3 amended: after a successful set(ctx, K, V) on a non-cancelled
context, an immediate get(ctx, K) (same instant, so no expiry elapses)
returns (V, true) — provided that, if K was already present in its shard,
the existing entry's namespace equals the context namespace (or the
context namespace is empty) and the existing entry was not already
expired.  Without that proviso the round-trip fails (see the
counterexample): an overwrite keeps the old entry's namespace and expiry. -/
theorem C3_roundtrip_amended {σ K V : Type} [DecidableEq K]
    (c : Cache σ K V) (hs : 0 < c.shards.length) (ns : String) (now : Int) (k : K) (v : V)
    (hprev : ∀ e, mapFind (c.shards.getD (c.shardIdx k) (defaultShard K V)).data k = some e →
      ((ns = "" ∨ e.nspace = ns) ∧ e.isExpired now = false)) :
    (c.set ⟨false, ns⟩ now k v).1 = none ∧
    ((c.set ⟨false, ns⟩ now k v).2.get ⟨false, ns⟩ now k).1 = some v := by
  constructor
  · have h := shardSet_fst (c.shards.getD (c.shardIdx k) (defaultShard K V)) c.policy
      ⟨false, ns⟩ now k v
    simpa [Cache.set] using h
  · set s := c.shards.getD (c.shardIdx k) (defaultShard K V) with hsdef
    set s2 := (Shard.set s c.policy ⟨false, ns⟩ now k v).2.1 with hs2
    have hidx : ((c.set ⟨false, ns⟩ now k v).2).shardIdx k = c.shardIdx k := by
      simp [Cache.set, Cache.shardIdx]
    have hshard : ((c.set ⟨false, ns⟩ now k v).2).shards.getD (c.shardIdx k) (defaultShard K V) = s2 := by
      simp only [Cache.set]
      exact listGetD_set_self c.shards (c.shardIdx k) _ _ (Nat.mod_lt _ hs)
    have hget : ∀ pol2 : Pol σ K, (Shard.get s2 pol2 ⟨false, ns⟩ now k).1 = some v := by
      intro pol2
      cases hm : mapFind s.data k with
      | some e =>
        have hrep : s2.data = mapReplace s.data k (({ e with value := v }).touch now) := by
          rw [hs2]
          unfold Shard.set
          rw [if_neg (by simp), hm]
          simp [recordIf_data]
        have hfind : mapFind s2.data k = some (({ e with value := v }).touch now) := by
          rw [hrep]
          exact mapFind_mapReplace_self s.data k e _ hm
        obtain ⟨hns, hexp⟩ := hprev e hm
        have := shardGet_hit s2 pol2 ns now k _ hfind ?_ ?_
        · simpa [Entry.touch] using this
        · simpa [Entry.touch] using hns
        · simpa [Entry.touch, Entry.isExpired] using hexp
      | none =>
        obtain ⟨s1, pol1, habs, httl, heq⟩ := shardSet_fresh s c.policy ns now k v hm
        have hdata : s2.data = s1.data ++ [(k, newEntry k v s1.ttl ns now)] := by
          rw [hs2, heq]
          simp [recordIf_data]
        have hfind : mapFind s2.data k = some (newEntry k v s1.ttl ns now) := by
          rw [hdata]
          exact mapFind_append_fresh s1.data k _ habs
        have := shardGet_hit s2 pol2 ns now k _ hfind (Or.inr rfl)
          (newEntry_not_expired k v s1.ttl ns now)
        simpa [newEntry] using this
    have hfinal := hget ((c.set ⟨false, ns⟩ now k v).2).policy
    simp only [Cache.get, hidx, hshard]
    exact hfinal

/-- C3 witness: fresh default cache, namespace n, key a. -/
theorem C3_roundtrip_witness :
    (cacheD.set ⟨false, "n"⟩ 0 "a" "v1").1 = none ∧
    ((cacheD.set ⟨false, "n"⟩ 0 "a" "v1").2.get ⟨false, "n"⟩ 0 "a").1 = some "v1" :=
  C3_roundtrip_amended cacheD (by decide) "n" 0 "a" "v1"
    (fun e h => by
      have hx : mapFind (cacheD.shards.getD (cacheD.shardIdx "a")
          (defaultShard String String)).data "a" = none := by decide
      rw [hx] at h
      exact Option.noConfusion h)

/-
C1 — counterexample at the found-iff boundary.
-/

/-- C1 counterexample: with threshold 0 (a valid option value) and a
similarity function bound that scores the stored key 0 (within the
contract range), a stored, non-expired, namespace-matching entry exists
with sim(query, key) >= threshold, yet get_similar reports found=false —
the scan also requires the score to exceed the running best, which starts
at 0.0.  So the claimed iff fails. -/
theorem C1_getSimilar_counterexample :
    (cacheT0.getSimilar ⟨false, ""⟩ 0 "q").1 = none ∧
    (∃ cand ∈ cacheCands cacheT0 ⟨false, ""⟩ 0 "q", cacheT0.threshold ≤ cand.score) := by
  constructor
  · decide
  · decide

/-
C1 — the best-match characterization.
-/

/-- A FirstMax result is none exactly on the empty candidate list. -/
theorem firstMax_none_iff {K V : Type} (E : List (SimCand K V)) (r : Option (SimCand K V))
    (h : FirstMax E r) : (r = none ↔ E = []) := by
  cases r with
  | none => exact ⟨fun _ => h, fun _ => rfl⟩
  | some c =>
    obtain ⟨l1, l2, hE, _, _⟩ := h
    constructor
    · intro hc
      exact Option.noConfusion hc
    · intro hc
      rw [hc] at hE
      exact absurd hE.symm (by simp)

/-- The strict-improvement fold computes the first maximum of the
eligible sublist (score at least the threshold and positive). -/
theorem foldl_pickF_firstMax {K V : Type} (t : Rat) (l : List (SimCand K V)) :
    FirstMax (l.filter (fun c => decide (t ≤ c.score) && decide (0 < c.score)))
      (l.foldl (pickF t) none) := by
  induction l using List.reverseRecOn with
  | nil => show ([] : List (SimCand K V)) = []; rfl
  | append_singleton l a ih =>
    rw [List.foldl_append, List.filter_append]
    simp only [List.foldl_cons, List.foldl_nil]
    rcases hcase : l.foldl (pickF t) none with _ | c
    · rw [hcase] at ih
      have hE : l.filter (fun c => decide (t ≤ c.score) && decide (0 < c.score)) = [] := ih
      unfold pickF
      simp only [scOf]
      by_cases hpa : t ≤ a.score ∧ (0 : Rat) < a.score
      · rw [if_pos hpa]
        have hfa : [a].filter (fun c => decide (t ≤ c.score) && decide (0 < c.score)) = [a] := by
          have h0 : (0 : Rat) < a.score := hpa.2
          simp [hpa.1, h0]
        rw [hE, hfa]
        exact ⟨[], [], rfl, by simp, by simp⟩
      · rw [if_neg hpa]
        have hfa : [a].filter (fun c => decide (t ≤ c.score) && decide (0 < c.score)) = [] := by
          rcases not_and_or.mp hpa with h | h
          · simp [h]
          · have h0 : ¬(0 : Rat) < a.score := h
            simp [h0]
        rw [hE, hfa]
        show ([] : List (SimCand K V)) ++ [] = []
        rfl
    · rw [hcase] at ih
      obtain ⟨l1, l2, hEeq, hlt, hle⟩ := ih
      have hcmem : c ∈ l.filter (fun c => decide (t ≤ c.score) && decide (0 < c.score)) := by
        rw [hEeq]
        exact List.mem_append.mpr (Or.inr (List.mem_cons_self c l2))
      have hcpos : 0 < c.score := by
        have := (List.mem_filter.mp hcmem).2
        simp only [Bool.and_eq_true, decide_eq_true_eq] at this
        exact this.2
      unfold pickF
      simp only [scOf]
      by_cases hbeat : t ≤ a.score ∧ c.score < a.score
      · rw [if_pos hbeat]
        have hca : c.score < a.score := hbeat.2
        have hfa : [a].filter (fun c => decide (t ≤ c.score) && decide (0 < c.score)) = [a] := by
          have h0 : (0 : Rat) < a.score := lt_trans hcpos hca
          simp [hbeat.1, h0]
        rw [hEeq, hfa]
        refine ⟨l1 ++ c :: l2, [], by simp, ?_, by simp⟩
        intro d hd
        rcases List.mem_append.mp hd with hd1 | hd2
        · exact lt_trans (hlt d hd1) hca
        · rcases List.mem_cons.mp hd2 with hdc | hdl2
          · rw [hdc]; exact hca
          · exact lt_of_le_of_lt (hle d hdl2) hca
      · rw [if_neg hbeat]
        by_cases hpa : t ≤ a.score ∧ (0 : Rat) < a.score
        · have hfa : [a].filter (fun c => decide (t ≤ c.score) && decide (0 < c.score)) = [a] := by
            simp [hpa.1, hpa.2]
          rw [hEeq, hfa]
          refine ⟨l1, l2 ++ [a], by simp, hlt, ?_⟩
          intro d hd
          rcases List.mem_append.mp hd with hd1 | hd2
          · exact hle d hd1
          · have hda : d = a := by simpa using hd2
            rw [hda]
            have : ¬(c.score < a.score) := fun hlt2 => hbeat ⟨hpa.1, hlt2⟩
            exact le_of_not_lt this
        · have hfa : [a].filter (fun c => decide (t ≤ c.score) && decide (0 < c.score)) = [] := by
            rcases not_and_or.mp hpa with h | h
            · simp [h]
            · have h0 : ¬(0 : Rat) < a.score := h
              simp [h0]
          rw [hEeq, hfa]
          exact ⟨l1, l2, by simp, hlt, hle⟩

/-- The conditional loop body equals the filterMap step. -/
theorem scanStep_eq_candF {K V : Type} [DecidableEq K]
    (s : Shard K V) (ctx : Ctx) (now : Int) (q : K) (best : Option (SimCand K V)) (k : K) :
    scanStep s ctx now q best k =
      match candF s ctx now q k with
      | none => best
      | some c => pickF s.threshold best c := by
  unfold scanStep candF
  cases mapFind s.data k with
  | none => rfl
  | some entry =>
    by_cases h1 : ctx.nspace ≠ "" ∧ entry.nspace ≠ ctx.nspace
    · simp [h1]
    · by_cases h2 : entry.isExpired now
      · simp [h1, h2]
      · cases s.similarity <;> simp [h1, h2]

/-- Folding the scan step over a key list is folding the pick step over
the contributed candidates. -/
theorem scan_foldl_aux {K V : Type} [DecidableEq K]
    (s : Shard K V) (ctx : Ctx) (now : Int) (q : K) :
    ∀ (keys : List K) (init : Option (SimCand K V)),
      keys.foldl (scanStep s ctx now q) init =
        (keys.filterMap (candF s ctx now q)).foldl (pickF s.threshold) init := by
  intro keys
  induction keys with
  | nil => intro init; rfl
  | cons k t ih =>
    intro init
    rw [List.foldl_cons, scanStep_eq_candF]
    cases hf : candF s ctx now q k with
    | none => simp [List.filterMap_cons, hf, ih]
    | some b => simp [List.filterMap_cons, hf, ih]

/-- The shard scan is the candidate-list fold. -/
theorem simScan_eq_foldl {K V : Type} [DecidableEq K]
    (s : Shard K V) (ctx : Ctx) (now : Int) (q : K) :
    simScan s ctx now q = (shardCands s ctx now q).foldl (pickF s.threshold) none := by
  unfold simScan shardCands
  exact scan_foldl_aux s ctx now q s.keys none

/-- The shard-local scan returns the first maximum of the shard's
eligible candidate list. -/
theorem shard_firstMax {K V : Type} [DecidableEq K]
    (s : Shard K V) (ctx : Ctx) (now : Int) (q : K) :
    FirstMax (shardElig s ctx now q) (simScan s ctx now q) := by
  rw [simScan_eq_foldl]
  unfold shardElig
  exact foldl_pickF_firstMax s.threshold (shardCands s ctx now q)

/-- Every eligible candidate has a positive score. -/
theorem shardElig_pos {K V : Type} [DecidableEq K]
    (s : Shard K V) (ctx : Ctx) (now : Int) (q : K) :
    ∀ d ∈ shardElig s ctx now q, 0 < d.score := by
  intro d hd
  unfold shardElig at hd
  have := (List.mem_filter.mp hd).2
  simp only [Bool.and_eq_true, decide_eq_true_eq] at this
  exact this.2

/-- Combining preserves the first-maximum property over concatenation
(ties go to the earlier block because adoption is strict). -/
theorem firstMax_merge {K V : Type} (E1 E2 : List (SimCand K V))
    (b1 b2 : Option (SimCand K V))
    (h1 : FirstMax E1 b1) (h2 : FirstMax E2 b2)
    (hpos2 : ∀ d ∈ E2, 0 < d.score) :
    FirstMax (E1 ++ E2) (mergeB b1 b2) := by
  cases b2 with
  | none =>
    have hE2 : E2 = [] := h2
    rw [hE2, List.append_nil]
    exact h1
  | some m =>
    obtain ⟨k1, k2, hE2, hklt, hkle⟩ := h2
    have hmpos : 0 < m.score := by
      refine hpos2 m ?_
      rw [hE2]
      exact List.mem_append.mpr (Or.inr (List.mem_cons_self m k2))
    cases b1 with
    | none =>
      have hE1 : E1 = [] := h1
      have : mergeB none (some m) = some m := by
        simp only [mergeB, scOf]
        rw [if_pos hmpos]
      rw [this, hE1, List.nil_append]
      exact ⟨k1, k2, hE2, hklt, hkle⟩
    | some c1 =>
      obtain ⟨l1, l2, hE1, hllt, hlle⟩ := h1
      have hc1top : ∀ d ∈ E1, d.score ≤ c1.score := by
        intro d hd
        rw [hE1] at hd
        rcases List.mem_append.mp hd with hd1 | hd2
        · exact le_of_lt (hllt d hd1)
        · rcases List.mem_cons.mp hd2 with hdc | hdl2
          · rw [hdc]
          · exact hlle d hdl2
      have hmtop : ∀ d ∈ E2, d.score ≤ m.score := by
        intro d hd
        rw [hE2] at hd
        rcases List.mem_append.mp hd with hd1 | hd2
        · exact le_of_lt (hklt d hd1)
        · rcases List.mem_cons.mp hd2 with hdc | hdl2
          · rw [hdc]
          · exact hkle d hdl2
      by_cases hbeat : c1.score < m.score
      · have : mergeB (some c1) (some m) = some m := by
          simp only [mergeB, scOf]
          rw [if_pos hbeat]
        rw [this, hE1, hE2]
        refine ⟨(l1 ++ c1 :: l2) ++ k1, k2, by simp, ?_, hkle⟩
        intro d hd
        rcases List.mem_append.mp hd with hd1 | hd2
        · exact lt_of_le_of_lt (hc1top d (by rw [hE1]; exact hd1)) hbeat
        · exact hklt d hd2
      · have : mergeB (some c1) (some m) = some c1 := by
          simp only [mergeB, scOf]
          rw [if_neg hbeat]
        rw [this, hE1]
        refine ⟨l1, l2 ++ E2, by simp, hllt, ?_⟩
        intro d hd
        rcases List.mem_append.mp hd with hd1 | hd2
        · exact hlle d hd1
        · exact le_trans (hmtop d hd2) (le_of_not_lt hbeat)

/-- On a non-cancelled context the result component of shard.getSimilar
is the scan result. -/
theorem shardGetSimilar_fst {σ K V : Type} [DecidableEq K]
    (s : Shard K V) (pol : Pol σ K) (ctx : Ctx) (now : Int) (q : K)
    (hc : ctx.cancelled = false) :
    (Shard.getSimilar s pol ctx now q).1 = simScan s ctx now q := by
  unfold Shard.getSimilar
  rw [if_neg (by simp [hc])]
  cases h : simScan s ctx now q <;> simp [h]

/-- The shard fan-out accumulates the first maximum across the
concatenated eligible lists. -/
theorem simGo_firstMax {σ K V : Type} [DecidableEq K]
    (ctx : Ctx) (now : Int) (q : K) (hc : ctx.cancelled = false) :
    ∀ (ss : List (Shard K V)) (pol : Pol σ K) (best : Option (SimCand K V))
      (E0 : List (SimCand K V)),
      FirstMax E0 best → (∀ d ∈ E0, 0 < d.score) →
      FirstMax (E0 ++ (ss.map (fun s => shardElig s ctx now q)).flatten)
        (simGo ctx now q ss pol best).1 := by
  intro ss
  induction ss with
  | nil =>
    intro pol best E0 h0 _
    simpa [simGo] using h0
  | cons s rest ih =>
    intro pol best E0 h0 hpos0
    have hr : (Shard.getSimilar s pol ctx now q).1 = simScan s ctx now q :=
      shardGetSimilar_fst s pol ctx now q hc
    have hmerge : FirstMax (E0 ++ shardElig s ctx now q)
        (mergeB best (Shard.getSimilar s pol ctx now q).1) := by
      rw [hr]
      exact firstMax_merge E0 (shardElig s ctx now q) best (simScan s ctx now q)
        h0 (shard_firstMax s ctx now q) (shardElig_pos s ctx now q)
    have hpos : ∀ d ∈ E0 ++ shardElig s ctx now q, 0 < d.score := by
      intro d hd
      rcases List.mem_append.mp hd with hd1 | hd2
      · exact hpos0 d hd1
      · exact shardElig_pos s ctx now q d hd2
    have := ih (Shard.getSimilar s pol ctx now q).2.2
      (mergeB best (Shard.getSimilar s pol ctx now q).1)
      (E0 ++ shardElig s ctx now q) hmerge hpos
    simpa [simGo, List.append_assoc] using this

/-- C1 amended: on a non-cancelled context, get_similar finds a match iff
some stored entry is non-expired, namespace-matching and has similarity
score at least the threshold AND strictly positive (the running best
starts at 0.0, so a zero score can never be adopted even when the
threshold is 0); when found, the returned (value, matched key, score)
triple is the first candidate — in shard-index order, then insertion
order within the shard — attaining the maximal score among those
candidates: strictly greater score wins, ties keep the earlier one. -/
theorem C1_getSimilar_firstMax {σ K V : Type} [DecidableEq K]
    (c : Cache σ K V) (ns : String) (now : Int) (q : K) :
    ((c.getSimilar ⟨false, ns⟩ now q).1 = none ↔ cacheElig c ⟨false, ns⟩ now q = []) ∧
    FirstMax (cacheElig c ⟨false, ns⟩ now q) ((c.getSimilar ⟨false, ns⟩ now q).1) := by
  have hres : (c.getSimilar ⟨false, ns⟩ now q).1 =
      (simGo ⟨false, ns⟩ now q c.shards c.policy none).1 := by
    unfold Cache.getSimilar
    rw [if_neg (by simp)]
  have hmain := simGo_firstMax ⟨false, ns⟩ now q rfl c.shards c.policy none []
    rfl (by simp)
  rw [List.nil_append] at hmain
  rw [hres]
  have hE : cacheElig c ⟨false, ns⟩ now q =
      (c.shards.map (fun s => shardElig s ⟨false, ns⟩ now q)).flatten := rfl
  rw [hE]
  exact ⟨firstMax_none_iff _ _ hmain, hmain⟩

/-
C2 — same key set under two namespaces.
-/

/-- C2 counterexample: after set("x","A") under namespace a and
set("x","B") under namespace b, the claim expects get("x") under b to
return ("B", true); both sets succeed, but the second set finds the key
present and overwrites the value in place, keeping the namespace captured
at creation (a) — so the get under b misses. -/
theorem C2_namespace_overwrite_counterexample :
    (cacheD.set ctxA 0 "x" "A").1 = none ∧
    (cacheE1.set ctxB 0 "x" "B").1 = none ∧
    (cacheE2.get ctxB 0 "x").1 = none := by
  refine ⟨?_, ?_, ?_⟩ <;> decide

/-- C2 amended: in that scenario get("x") under namespace a returns
("B", true) — the overwrite replaced the value while the entry kept its
creation namespace a — and get("x") under namespace b returns
(zero, false). -/
theorem C2_namespace_overwrite_amended :
    (cacheE2.get ctxA 0 "x").1 = some "B" ∧
    (cacheE2.get ctxB 0 "x").1 = none := by
  constructor <;> decide

/-
C3 — round-trip counterexample.
-/

/-- C3 counterexample: starting from a reachable state holding key x with
creation namespace a, a set of x under namespace b returns success, yet
the immediate get under the very same context misses — the overwrite kept
the old namespace, which the namespace filter then rejects. -/
theorem C3_roundtrip_counterexample :
    (cacheE1.set ctxB 0 "x" "B").1 = none ∧
    ((cacheE1.set ctxB 0 "x" "B").2.get ctxB 0 "x").1 = none := by
  constructor <;> decide

/-
C4 — capacity counterexample.
-/

/-- C4 counterexample: a cache built with total capacity max_size = 1 and
2 shards gives every shard a per-shard quota of max(1, 1/2) = 1; two
successful sets with distinct keys routed to different shards (N = 2 > M
= 1) leave len() = 2 > 1, violating the claimed bound len() <= M. -/
theorem C4_capacity_counterexample :
    (cacheTwo1.set ⟨false, ""⟩ 0 "a" "1").1 = none ∧
    ((cacheTwo1.set ⟨false, ""⟩ 0 "a" "1").2.set ⟨false, ""⟩ 0 "b" "2").1 = none ∧
    cacheTwo1Run.len = 2 := by
  refine ⟨?_, ?_, ?_⟩ <;> decide

/-
C6 — accounting counterexample.
-/

/-- C6 counterexample: stats enabled, two shards of quota one sharing one
LRU policy; keys b (shard 1), a, c (shard 0).  The third set finds shard
0 full and evicts the LRU victim b — a key of the other shard — so an
eviction is recorded while no entry leaves the shard.  Afterwards sets=3,
deletes=0, evictions=1 and len()=3, so sets - deletes - evictions = 2 <
3 = len(), violating the claimed invariant. -/
theorem C6_accounting_counterexample :
    cacheLRU2Run.cacheStats.sets = 3 ∧
    cacheLRU2Run.cacheStats.deletes = 0 ∧
    cacheLRU2Run.cacheStats.evictions = 1 ∧
    cacheLRU2Run.len = 3 ∧
    cacheLRU2Run.cacheStats.sets <
      cacheLRU2Run.len + cacheLRU2Run.cacheStats.deletes + cacheLRU2Run.cacheStats.evictions := by
  refine ⟨?_, ?_, ?_, ?_, ?_⟩ <;> decide

/-
C6 — accounting with the FIFO fallback.
-/

/-- When stats are enabled recordIf is a pure stats update. -/
theorem recordIf_of_enabled {K V : Type} (s : Shard K V) (f : ShardStats → ShardStats)
    (h : s.enableStats = true) :
    recordIf s f = { s with stats := f s.stats } := by
  unfold recordIf
  rw [if_pos h]

/-- Replacement keeps the key column. -/
theorem mapReplace_fst {K V : Type} [DecidableEq K]
    (d : List (K × Entry K V)) (k : K) (e : Entry K V) :
    (mapReplace d k e).map Prod.fst = d.map Prod.fst := by
  induction d with
  | nil => rfl
  | cons p t ih =>
    obtain ⟨a, ea⟩ := p
    by_cases hak : a = k
    · simp [mapReplace, hak]
    · simp [mapReplace, hak, ih]

/-- Replacement keeps the map size. -/
theorem mapReplace_length {K V : Type} [DecidableEq K]
    (d : List (K × Entry K V)) (k : K) (e : Entry K V) :
    (mapReplace d k e).length = d.length := by
  induction d with
  | nil => rfl
  | cons p t ih =>
    obtain ⟨a, ea⟩ := p
    by_cases hak : a = k
    · simp [mapReplace, hak]
    · simp [mapReplace, hak, ih]

/-- Touching keeps the key column. -/
theorem touchKey_fst {K V : Type} [DecidableEq K]
    (d : List (K × Entry K V)) (k : K) (now : Int) :
    (touchKey d k now).map Prod.fst = d.map Prod.fst := by
  unfold touchKey
  cases mapFind d k with
  | none => rfl
  | some e => exact mapReplace_fst d k _

/-- Touching keeps the map size. -/
theorem touchKey_length {K V : Type} [DecidableEq K]
    (d : List (K × Entry K V)) (k : K) (now : Int) :
    (touchKey d k now).length = d.length := by
  unfold touchKey
  cases mapFind d k with
  | none => rfl
  | some e => exact mapReplace_length d k _

/-- Erasure removes exactly the first matching position of the key column. -/
theorem mapErase_fst {K V : Type} [DecidableEq K]
    (d : List (K × Entry K V)) (k : K) :
    (mapErase d k).map Prod.fst = removeFirst (d.map Prod.fst) k := by
  induction d with
  | nil => rfl
  | cons p t ih =>
    obtain ⟨a, ea⟩ := p
    by_cases hak : a = k
    · simp [mapErase, removeFirst, hak]
    · simp [mapErase, removeFirst, hak, ih]

/-- Erasing a present key shrinks the map by one. -/
theorem mapErase_length_found {K V : Type} [DecidableEq K]
    (d : List (K × Entry K V)) (k : K) (e : Entry K V) (h : mapFind d k = some e) :
    (mapErase d k).length + 1 = d.length := by
  induction d with
  | nil => exact absurd h (by simp [mapFind])
  | cons p t ih =>
    obtain ⟨a, ea⟩ := p
    by_cases hak : a = k
    · simp [mapErase, hak]
    · simp only [mapFind, if_neg hak] at h
      simp [mapErase, hak, ih h]

/-- shard.get with no policy keeps the shard invariant and returns no policy. -/
theorem shardGet_ok {σ K V : Type} [DecidableEq K]
    (s : Shard K V) (ctx : Ctx) (now : Int) (k : K) (h : ShardOk s) :
    ShardOk (Shard.get s (none : Pol σ K) ctx now k).2.1 ∧
    (Shard.get s (none : Pol σ K) ctx now k).2.2 = (none : Pol σ K) := by
  obtain ⟨hen, hal, hbal⟩ := h
  unfold Shard.get
  by_cases hc : ctx.cancelled = true
  · rw [if_pos hc]
    exact ⟨⟨hen, hal, hbal⟩, rfl⟩
  · rw [if_neg hc]
    split
    · rw [recordIf_of_enabled s _ hen]
      exact ⟨⟨hen, hal, hbal⟩, rfl⟩
    · split
      · rw [recordIf_of_enabled s _ hen]
        exact ⟨⟨hen, hal, hbal⟩, rfl⟩
      · split
        · rw [recordIf_of_enabled s _ hen]
          exact ⟨⟨hen, hal, hbal⟩, rfl⟩
        · rw [recordIf_of_enabled]
          · refine ⟨⟨hen, ?_, ?_⟩, rfl⟩
            · show (mapReplace s.data k _).map Prod.fst = s.keys
              rw [mapReplace_fst]
              exact hal
            · show (mapReplace s.data k _).length + s.stats.deletes + s.stats.evictions ≤
                s.stats.sets
              rw [mapReplace_length]
              exact hbal
          · exact hen

/-- shard.delete with no policy keeps the shard invariant and returns no policy. -/
theorem shardDelete_ok {σ K V : Type} [DecidableEq K]
    (s : Shard K V) (ctx : Ctx) (k : K) (h : ShardOk s) :
    ShardOk (Shard.delete s (none : Pol σ K) ctx k).2.1 ∧
    (Shard.delete s (none : Pol σ K) ctx k).2.2 = (none : Pol σ K) := by
  obtain ⟨hen, hal, hbal⟩ := h
  unfold Shard.delete
  by_cases hc : ctx.cancelled = true
  · rw [if_pos hc]
    exact ⟨⟨hen, hal, hbal⟩, rfl⟩
  · rw [if_neg hc]
    split
    · exact ⟨⟨hen, hal, hbal⟩, rfl⟩
    · rename_i e hm
      rw [recordIf_of_enabled]
      · refine ⟨⟨hen, ?_, ?_⟩, rfl⟩
        · show (mapErase s.data k).map Prod.fst = removeFirst s.keys k
          rw [mapErase_fst, hal]
        · show (mapErase s.data k).length + (s.stats.deletes + 1) + s.stats.evictions ≤
            s.stats.sets
          have := mapErase_length_found s.data k e hm
          omega
      · exact hen

/-- FIFO eviction keeps the shard invariant. -/
theorem evict_none_ok {σ K V : Type} [DecidableEq K]
    (s : Shard K V) (h : ShardOk s) :
    ShardOk (Shard.evict s (none : Pol σ K)).2.1 ∧
    (Shard.evict s (none : Pol σ K)).2.2 = (none : Pol σ K) := by
  obtain ⟨hen, hal, hbal⟩ := h
  simp only [Shard.evict]
  cases hk : s.keys with
  | nil => exact ⟨⟨hen, hal, hbal⟩, rfl⟩
  | cons k0 rest =>
    show ShardOk (recordIf { s with data := mapErase s.data k0, keys := rest }
        (fun st => { st with evictions := st.evictions + 1 })) ∧
      (none : Pol σ K) = none
    rw [recordIf_of_enabled]
    · cases hd : s.data with
      | nil =>
        rw [hd, hk] at hal
        exact absurd hal (by simp)
      | cons p dt =>
        obtain ⟨a, ea⟩ := p
        rw [hd, hk] at hal
        simp only [List.map_cons, List.cons.injEq] at hal
        obtain ⟨hak0, haltail⟩ := hal
        refine ⟨⟨hen, ?_, ?_⟩, rfl⟩
        · show (mapErase ((a, ea) :: dt) k0).map Prod.fst = rest
          subst hak0
          simp [mapErase, haltail]
        · show (mapErase ((a, ea) :: dt) k0).length + s.stats.deletes +
            (s.stats.evictions + 1) ≤ s.stats.sets
          rw [hd] at hbal
          subst hak0
          simp only [List.length_cons] at hbal
          simp [mapErase]
          omega
    · exact hen

/-- shard.set with no policy keeps the shard invariant and returns no policy. -/
theorem shardSet_ok {σ K V : Type} [DecidableEq K]
    (s : Shard K V) (ctx : Ctx) (now : Int) (k : K) (v : V) (h : ShardOk s) :
    ShardOk (Shard.set s (none : Pol σ K) ctx now k v).2.1 ∧
    (Shard.set s (none : Pol σ K) ctx now k v).2.2 = (none : Pol σ K) := by
  obtain ⟨hen, hal, hbal⟩ := h
  unfold Shard.set
  by_cases hc : ctx.cancelled = true
  · rw [if_pos hc]
    exact ⟨⟨hen, hal, hbal⟩, rfl⟩
  · rw [if_neg hc]
    split
    · rw [recordIf_of_enabled]
      · refine ⟨⟨hen, ?_, ?_⟩, rfl⟩
        · show (mapReplace s.data k _).map Prod.fst = s.keys
          rw [mapReplace_fst]
          exact hal
        · show (mapReplace s.data k _).length + s.stats.deletes + s.stats.evictions ≤
            s.stats.sets + 1
          rw [mapReplace_length]
          omega
      · exact hen
    · rename_i hm
      rcases hred : (if 0 < s.maxSize ∧ s.maxSize ≤ s.data.length
          then Shard.evict s (none : Pol σ K)
          else ((none : Option GoError), s, (none : Pol σ K))) with ⟨oe, s1, pol1⟩
      have hok1 : ShardOk s1 ∧ pol1 = (none : Pol σ K) := by
        by_cases hcond : 0 < s.maxSize ∧ s.maxSize ≤ s.data.length
        · have h2 := @evict_none_ok σ K V _ s ⟨hen, hal, hbal⟩
          rw [if_pos hcond] at hred
          rw [hred] at h2
          exact h2
        · rw [if_neg hcond] at hred
          cases hred
          exact ⟨⟨hen, hal, hbal⟩, rfl⟩
      obtain ⟨⟨hen1, hal1, hbal1⟩, hpol1⟩ := hok1
      cases oe with
      | some e => exact ⟨⟨hen1, hal1, hbal1⟩, hpol1⟩
      | none =>
        subst hpol1
        show ShardOk (recordIf { s1 with
            data := s1.data ++ [(k, newEntry k v s1.ttl ctx.nspace now)]
            keys := s1.keys ++ [k] }
          (fun st => { st with sets := st.sets + 1 })) ∧
          polOnAdd (none : Pol σ K) k (newEntry k v s1.ttl ctx.nspace now).accessCount
            (newEntry k v s1.ttl ctx.nspace now).createdAt
            (newEntry k v s1.ttl ctx.nspace now).accessedAt = none
        rw [recordIf_of_enabled]
        · refine ⟨⟨hen1, ?_, ?_⟩, rfl⟩
          · show (s1.data ++ [(k, newEntry k v s1.ttl ctx.nspace now)]).map Prod.fst =
              s1.keys ++ [k]
            rw [List.map_append, hal1]
            rfl
          · show (s1.data ++ [(k, newEntry k v s1.ttl ctx.nspace now)]).length +
              s1.stats.deletes + s1.stats.evictions ≤ s1.stats.sets + 1
            rw [List.length_append]
            simp only [List.length_singleton]
            omega
        · exact hen1

/-- shard.getSimilar with no policy keeps the shard invariant and returns
no policy. -/
theorem shardGetSimilar_ok {σ K V : Type} [DecidableEq K]
    (s : Shard K V) (ctx : Ctx) (now : Int) (q : K) (h : ShardOk s) :
    ShardOk (Shard.getSimilar s (none : Pol σ K) ctx now q).2.1 ∧
    (Shard.getSimilar s (none : Pol σ K) ctx now q).2.2 = (none : Pol σ K) := by
  obtain ⟨hen, hal, hbal⟩ := h
  unfold Shard.getSimilar
  by_cases hc : ctx.cancelled = true
  · rw [if_pos hc]
    exact ⟨⟨hen, hal, hbal⟩, rfl⟩
  · rw [if_neg hc]
    split
    · rw [recordIf_of_enabled s _ hen]
      exact ⟨⟨hen, hal, hbal⟩, rfl⟩
    · rename_i c hscan
      rw [recordIf_of_enabled s _ hen]
      dsimp only
      rw [recordIf_of_enabled]
      · refine ⟨⟨hen, ?_, ?_⟩, rfl⟩
        · show (touchKey s.data c.key now).map Prod.fst = s.keys
          rw [touchKey_fst]
          exact hal
        · show (touchKey s.data c.key now).length + s.stats.deletes + s.stats.evictions ≤
            s.stats.sets
          rw [touchKey_length]
          exact hbal
      · exact hen

/-- The element getD reads at a valid index is a member. -/
theorem getD_mem {α : Type} (l : List α) (i : Nat) (d : α) (h : i < l.length) :
    l.getD i d ∈ l := by
  induction l generalizing i with
  | nil => simp at h
  | cons a t ih =>
    cases i with
    | zero => simp
    | succ n =>
      simp only [List.getD_cons_succ]
      exact List.mem_cons_of_mem a (ih n (by simpa using h))

/-- The shard fan-out of getSimilar with no policy keeps every shard
invariant and returns no policy. -/
theorem simGo_ok {σ K V : Type} [DecidableEq K]
    (ctx : Ctx) (now : Int) (q : K) :
    ∀ (ss : List (Shard K V)) (best : Option (SimCand K V)),
      (∀ s ∈ ss, ShardOk s) →
      (∀ s ∈ (simGo ctx now q ss (none : Pol σ K) best).2.1, ShardOk s) ∧
      (simGo ctx now q ss (none : Pol σ K) best).2.2 = (none : Pol σ K) := by
  intro ss
  induction ss with
  | nil =>
    intro best hok
    exact ⟨by simp [simGo], rfl⟩
  | cons s rest ih =>
    intro best hok
    obtain ⟨hs1, hpol⟩ := @shardGetSimilar_ok σ K V _ s ctx now q (hok s (by simp))
    have hrest := ih (mergeB best (Shard.getSimilar s (none : Pol σ K) ctx now q).1)
      (fun s2 hs2 => hok s2 (List.mem_cons_of_mem s hs2))
    constructor
    · intro s2 hs2
      simp only [simGo] at hs2
      rw [hpol] at hs2
      rcases List.mem_cons.mp hs2 with hh | hh
      · rw [hh]; exact hs1
      · exact hrest.1 s2 hh
    · simp only [simGo]
      rw [hpol]
      exact hrest.2

/-- shard.get never materializes a policy out of none. -/
theorem shardGet_pol_none {σ K V : Type} [DecidableEq K]
    (s : Shard K V) (ctx : Ctx) (now : Int) (k : K) :
    (Shard.get s (none : Pol σ K) ctx now k).2.2 = (none : Pol σ K) := by
  unfold Shard.get
  by_cases hc : ctx.cancelled = true
  · rw [if_pos hc]
  · rw [if_neg hc]
    split
    · rfl
    · split
      · rfl
      · split
        · rfl
        · rfl

/-- shard.delete never materializes a policy out of none. -/
theorem shardDelete_pol_none {σ K V : Type} [DecidableEq K]
    (s : Shard K V) (ctx : Ctx) (k : K) :
    (Shard.delete s (none : Pol σ K) ctx k).2.2 = (none : Pol σ K) := by
  unfold Shard.delete
  by_cases hc : ctx.cancelled = true
  · rw [if_pos hc]
  · rw [if_neg hc]
    split
    · rfl
    · rfl

/-- FIFO eviction never materializes a policy out of none. -/
theorem evict_pol_none {σ K V : Type} [DecidableEq K] (s : Shard K V) :
    (Shard.evict s (none : Pol σ K)).2.2 = (none : Pol σ K) := by
  simp only [Shard.evict]
  cases s.keys <;> rfl

/-- shard.set never materializes a policy out of none. -/
theorem shardSet_pol_none {σ K V : Type} [DecidableEq K]
    (s : Shard K V) (ctx : Ctx) (now : Int) (k : K) (v : V) :
    (Shard.set s (none : Pol σ K) ctx now k v).2.2 = (none : Pol σ K) := by
  unfold Shard.set
  by_cases hc : ctx.cancelled = true
  · rw [if_pos hc]
  · rw [if_neg hc]
    split
    · rfl
    · have hstep2 : (if 0 < s.maxSize ∧ s.maxSize ≤ s.data.length
          then Shard.evict s (none : Pol σ K)
          else ((none : Option GoError), s, (none : Pol σ K))).2.2 = (none : Pol σ K) := by
        split
        · exact evict_pol_none s
        · rfl
      rcases hred : (if 0 < s.maxSize ∧ s.maxSize ≤ s.data.length
          then Shard.evict s (none : Pol σ K)
          else ((none : Option GoError), s, (none : Pol σ K))) with ⟨oe, s1, pol1⟩
      rw [hred] at hstep2
      simp only at hstep2
      subst hstep2
      cases oe <;> rfl

/-- shard.getSimilar never materializes a policy out of none. -/
theorem shardGetSimilar_pol_none {σ K V : Type} [DecidableEq K]
    (s : Shard K V) (ctx : Ctx) (now : Int) (q : K) :
    (Shard.getSimilar s (none : Pol σ K) ctx now q).2.2 = (none : Pol σ K) := by
  unfold Shard.getSimilar
  by_cases hc : ctx.cancelled = true
  · rw [if_pos hc]
  · rw [if_neg hc]
    split
    · rfl
    · rfl

/-- The getSimilar fan-out never materializes a policy out of none. -/
theorem simGo_pol_none {σ K V : Type} [DecidableEq K]
    (ctx : Ctx) (now : Int) (q : K) :
    ∀ (ss : List (Shard K V)) (best : Option (SimCand K V)),
      (simGo ctx now q ss (none : Pol σ K) best).2.2 = (none : Pol σ K) := by
  intro ss
  induction ss with
  | nil => intro best; rfl
  | cons s rest ih =>
    intro best
    simp only [simGo]
    rw [shardGetSimilar_pol_none]
    exact ih _

/-- One workload step preserves the cache invariant. -/
theorem stepOp_ok {σ K V : Type} [DecidableEq K]
    (c : Cache σ K V) (op : Op K V) (h : CacheOk c) : CacheOk (stepOp c op) := by
  obtain ⟨hpol, hen, hsh⟩ := h
  have hset : ∀ (y : Shard K V) (i : Nat), ShardOk y →
      ∀ s2 ∈ c.shards.set i y, ShardOk s2 := by
    intro y i hy s2 hs2
    rcases List.mem_or_eq_of_mem_set hs2 with hh | hh
    · exact hsh s2 hh
    · rw [hh]; exact hy
  have hnoset : ∀ (y : Shard K V) (i : Nat), c.shards.length ≤ i →
      ∀ s2 ∈ c.shards.set i y, ShardOk s2 := by
    intro y i hi s2 hs2
    rw [List.set_eq_of_length_le hi] at hs2
    exact hsh s2 hs2
  cases op with
  | opGet ctx now k =>
    show CacheOk { c with shards := _, policy := _ }
    rw [hpol]
    refine ⟨?_, hen, ?_⟩
    · exact shardGet_pol_none _ ctx now k
    · by_cases hi : c.shardIdx k < c.shards.length
      · exact hset _ _ ((shardGet_ok _ ctx now k (hsh _ (getD_mem c.shards _ _ hi))).1)
      · exact hnoset _ _ (le_of_not_lt hi)
  | opSet ctx now k v =>
    show CacheOk { c with shards := _, policy := _ }
    rw [hpol]
    refine ⟨?_, hen, ?_⟩
    · exact shardSet_pol_none _ ctx now k v
    · by_cases hi : c.shardIdx k < c.shards.length
      · exact hset _ _ ((shardSet_ok _ ctx now k v (hsh _ (getD_mem c.shards _ _ hi))).1)
      · exact hnoset _ _ (le_of_not_lt hi)
  | opDelete ctx k =>
    show CacheOk { c with shards := _, policy := _ }
    rw [hpol]
    refine ⟨?_, hen, ?_⟩
    · exact shardDelete_pol_none _ ctx k
    · by_cases hi : c.shardIdx k < c.shards.length
      · exact hset _ _ ((shardDelete_ok _ ctx k (hsh _ (getD_mem c.shards _ _ hi))).1)
      · exact hnoset _ _ (le_of_not_lt hi)
  | opGetSimilar ctx now q =>
    show CacheOk (Cache.getSimilar c ctx now q).2
    unfold Cache.getSimilar
    by_cases hc : ctx.cancelled = true
    · rw [if_pos hc]
      exact ⟨hpol, hen, hsh⟩
    · rw [if_neg hc]
      rw [hpol]
      refine ⟨?_, hen, ?_⟩
      · exact simGo_pol_none ctx now q c.shards none
      · exact (simGo_ok ctx now q c.shards none hsh).1

/-- A whole workload preserves the cache invariant. -/
theorem runOps_ok {σ K V : Type} [DecidableEq K]
    (c0 : Cache σ K V) (ops : List (Op K V)) (h : CacheOk c0) : CacheOk (runOps c0 ops) := by
  induction ops generalizing c0 with
  | nil => exact h
  | cons op rest ih => exact ih (stepOp c0 op) (stepOp_ok c0 op h)

/-- Summing the per-shard balances. -/
theorem sum_bal {K V : Type} :
    ∀ (l : List (Shard K V)), (∀ s ∈ l, ShardOk s) →
      (l.map (fun s => s.data.length)).sum + (l.map (fun s => s.stats.deletes)).sum +
        (l.map (fun s => s.stats.evictions)).sum ≤ (l.map (fun s => s.stats.sets)).sum := by
  intro l
  induction l with
  | nil => simp
  | cons s t ih =>
    intro h
    obtain ⟨_, _, hbal⟩ := h s (by simp)
    have ht := ih (fun x hx => h x (List.mem_cons_of_mem s hx))
    simp only [List.map_cons, List.sum_cons]
    omega

/-- The invariant gives the claimed accounting inequality. -/
theorem cacheOk_bal {σ K V : Type} (c : Cache σ K V) (h : CacheOk c) :
    c.len + c.cacheStats.deletes + c.cacheStats.evictions ≤ c.cacheStats.sets := by
  obtain ⟨hpol, hen, hsh⟩ := h
  unfold Cache.len Cache.cacheStats
  rw [if_neg (by simp [hen])]
  exact sum_bal c.shards hsh

/-- C6 amended: for a cache with stats enabled and NO eviction policy
attached (so shard eviction uses the FIFO fallback, which always removes
an entry when it counts an eviction), over any mix of get, set,
get_similar and delete on any keys, namespaces and times:
len() + stats.deletes + stats.evictions <= stats.sets at every point
(equivalently, sets - deletes - evictions >= len(), stated additively
because the Go counters are unsigned), and len() >= 0 trivially.  The
original claim, quantified over arbitrary policies, fails: a policy
shared by several shards can select a victim held by another shard, and
the eviction is then recorded without any entry leaving the shard (see
the counterexample). -/
theorem C6_accounting_amended {σ K V : Type} [DecidableEq K]
    (c0 : Cache σ K V) (h : CacheOk c0) (ops : List (Op K V)) :
    (runOps c0 ops).len + (runOps c0 ops).cacheStats.deletes +
      (runOps c0 ops).cacheStats.evictions ≤ (runOps c0 ops).cacheStats.sets ∧
    0 ≤ (runOps c0 ops).len :=
  ⟨cacheOk_bal _ (runOps_ok c0 ops h), Nat.zero_le _⟩

/-- C6 witness: a stats-enabled default cache under a small mixed workload. -/
theorem C6_accounting_witness :
    (runOps cacheStatsD opsW).len + (runOps cacheStatsD opsW).cacheStats.deletes +
      (runOps cacheStatsD opsW).cacheStats.evictions ≤ (runOps cacheStatsD opsW).cacheStats.sets ∧
    0 ≤ (runOps cacheStatsD opsW).len :=
  C6_accounting_amended cacheStatsD
    (by
      refine ⟨rfl, rfl, ?_⟩
      intro s hs
      have hs2 : s ∈ List.replicate 16 (newShard String String 62 none 0.8 0 true) := hs
      rw [List.eq_of_mem_replicate hs2]
      exact ⟨rfl, rfl, Nat.le_refl 0⟩)
    opsW

/-
C4 — single-shard LRU capacity.
-/

/-- When stats are disabled recordIf is the identity. -/
theorem recordIf_of_disabled {K V : Type} (s : Shard K V) (f : ShardStats → ShardStats)
    (h : s.enableStats = false) :
    recordIf s f = s := by
  unfold recordIf
  rw [if_neg (by simp [h])]

/-- A key is absent exactly when it is not in the key column. -/
theorem mapFind_eq_none_iff {K V : Type} [DecidableEq K]
    (d : List (K × Entry K V)) (k : K) :
    mapFind d k = none ↔ k ∉ d.map Prod.fst := by
  induction d with
  | nil => simp [mapFind]
  | cons p t ih =>
    obtain ⟨a, ea⟩ := p
    simp only [mapFind, List.map_cons, List.mem_cons]
    by_cases hak : a = k
    · subst hak
      simp
    · rw [if_neg hak, ih]
      constructor
      · intro hmem hor
        rcases hor with h1 | h2
        · exact hak h1.symm
        · exact hmem h2
      · intro hor h2
        exact hor (Or.inr h2)

/-- Lookup of a stored pair under distinct keys. -/
theorem mapFind_entPair_of_mem (ns : String) (now : Int)
    (kept : List (String × String)) (p : String × String)
    (hnd : (kept.map Prod.fst).Nodup) (hp : p ∈ kept) :
    mapFind (kept.map (entPair ns now)) p.1 = some (newEntry p.1 p.2 0 ns now) := by
  induction kept with
  | nil => exact absurd hp (by simp)
  | cons q t ih =>
    simp only [List.map_cons, List.nodup_cons] at hnd
    rcases List.mem_cons.mp hp with hq | ht
    · subst hq
      simp [entPair, mapFind]
    · have hne : q.1 ≠ p.1 := by
        intro hh
        exact hnd.1 (hh ▸ List.mem_map_of_mem Prod.fst ht)
      simp only [List.map_cons, entPair, mapFind, if_neg hne]
      exact ih hnd.2 ht

/-- Removing the head element. -/
theorem removeFirst_head {α : Type} [DecidableEq α] (a : α) (t : List α) :
    removeFirst (a :: t) a = t := by
  simp [removeFirst]

/-- Removing an element only present as the appended last one. -/
theorem removeFirst_append_notmem {α : Type} [DecidableEq α]
    (l : List α) (x : α) (h : x ∉ l) :
    removeFirst (l ++ [x]) x = l := by
  induction l with
  | nil => simp [removeFirst]
  | cons a t ih =>
    have hax : a ≠ x := fun hh => h (hh ▸ List.mem_cons_self a t)
    show (if a = x then t ++ [x] else a :: removeFirst (t ++ [x]) x) = a :: t
    rw [if_neg hax, ih (fun hx => h (List.mem_cons_of_mem a hx))]

/-- The cache New builds for the single-shard LRU configuration. -/
theorem c4_base (M : Nat) (hM : 1 ≤ M) (mz : Int) (ns : String) (now : Int) :
    lruCache M mz = c4state M mz ns now [] := by
  have hMpos : (0 : Int) < (M : Int) := by exact_mod_cast hM
  have hopts : ([WithShards 1, WithMaxSize (M : Int),
      WithEviction (lruPolicy String, newLRU mz)].foldl (fun o f => f o)
        (defaultOptions (LRUState String) String)) = c4opts M mz := by
    simp only [List.foldl_cons, List.foldl_nil]
    unfold WithShards WithMaxSize WithEviction defaultOptions c4opts
    rw [if_pos hMpos]
    rw [if_pos (show (0 : Int) < 1 ∧ (1 : Int) ≤ 256 by norm_num)]
  unfold lruCache New
  rw [hopts]
  unfold c4state
  dsimp only [c4opts]
  rw [show ((M : Int)).toNat / ((1 : Int)).toNat = M from by
    rw [Int.toNat_natCast]
    exact Nat.div_one M]
  rw [if_neg (by omega)]
  unfold c4shard c4pol newShard newLRU
  simp [List.replicate]

/-- Reduction of shard.set on a fresh key through a known eviction step. -/
theorem shardSet_fresh_eq {σ K V : Type} [DecidableEq K]
    (s : Shard K V) (pol : Pol σ K) (ns : String) (now : Int) (k : K) (v : V)
    (s1 : Shard K V) (pol1 : Pol σ K)
    (hm : mapFind s.data k = none)
    (hstep : (if 0 < s.maxSize ∧ s.maxSize ≤ s.data.length
        then Shard.evict s pol else (none, s, pol)) = (none, s1, pol1)) :
    Shard.set s pol ⟨false, ns⟩ now k v =
      (none,
       recordIf { s1 with
           data := s1.data ++ [(k, newEntry k v s1.ttl ns now)]
           keys := s1.keys ++ [k] }
         (fun st => { st with sets := st.sets + 1 }),
       polOnAdd pol1 k (newEntry k v s1.ttl ns now).accessCount
         (newEntry k v s1.ttl ns now).createdAt (newEntry k v s1.ttl ns now).accessedAt) := by
  unfold Shard.set
  rw [if_neg (by simp), hm, hstep]

/-- Registering a fresh key with the tracked LRU pushes it to the front. -/
theorem c4_poladd (mz : Int) (_ns : String) (now : Int)
    (kt : List (String × String)) (p : String × String)
    (hq : p.1 ∉ kt.map Prod.fst) :
    polOnAdd (c4pol mz kt) p.1 0 now now = c4pol mz (kt ++ [p]) := by
  unfold c4pol polOnAdd
  show some (lruPolicy String, lruOnAdd p.1 ⟨(kt.map Prod.fst).reverse, mz⟩) =
    some (lruPolicy String, ⟨((kt ++ [p]).map Prod.fst).reverse, mz⟩)
  unfold lruOnAdd
  rw [if_neg (by simpa using hq)]
  simp [List.map_append]

/-- The shared LRU of the invariant selects the oldest key as victim. -/
theorem c4_victim (mz : Int) (q : String × String) (kt : List (String × String)) :
    (lruPolicy String).selectVictim ⟨((q :: kt).map Prod.fst).reverse, mz⟩ = some q.1 := by
  show lruSelectVictim _ = _
  unfold lruSelectVictim
  simp [List.getLast?_reverse]

/-- Eviction at capacity drops exactly the oldest pair, in the shard and
in the LRU tracking alike. -/
theorem c4_evict (M : Nat) (mz : Int) (ns : String) (now : Int)
    (q : String × String) (kt : List (String × String))
    (hkey : q.1 ∉ kt.map Prod.fst) :
    Shard.evict (c4shard M ns now (q :: kt)) (c4pol mz (q :: kt)) =
      (none, c4shard M ns now kt, c4pol mz kt) := by
  have hev : Shard.evict (c4shard M ns now (q :: kt)) (c4pol mz (q :: kt)) =
      (none,
       recordIf { c4shard M ns now (q :: kt) with
           data := mapErase (c4shard M ns now (q :: kt)).data q.1
           keys := removeFirst (c4shard M ns now (q :: kt)).keys q.1 }
         (fun st => { st with evictions := st.evictions + 1 }),
       some (lruPolicy String, lruOnRemove q.1 ⟨((q :: kt).map Prod.fst).reverse, mz⟩)) := by
    show Shard.evict (c4shard M ns now (q :: kt))
      (some (lruPolicy String, ⟨((q :: kt).map Prod.fst).reverse, mz⟩)) = _
    simp only [Shard.evict]
    rw [c4_victim]
    exact rfl
  rw [hev, recordIf_of_disabled]
  · simp only [Prod.mk.injEq]
    refine ⟨trivial, ?_, ?_⟩
    · show ({ c4shard M ns now (q :: kt) with
          data := mapErase (c4shard M ns now (q :: kt)).data q.1
          keys := removeFirst (c4shard M ns now (q :: kt)).keys q.1 } : Shard String String) =
        c4shard M ns now kt
      unfold c4shard
      simp [entPair, mapErase, removeFirst]
    · show some (lruPolicy String, lruOnRemove q.1 ⟨((q :: kt).map Prod.fst).reverse, mz⟩) =
        c4pol mz kt
      unfold c4pol lruOnRemove
      rw [if_pos (by simp)]
      have hrev : ((q :: kt).map Prod.fst).reverse = (kt.map Prod.fst).reverse ++ [q.1] := by
        simp
      rw [hrev, removeFirst_append_notmem _ _ (by simpa using hkey)]
  · rfl

/-- One distinct-key set evolves the invariant state by keptNext. -/
theorem c4shard_step (M : Nat) (hM : 1 ≤ M) (mz : Int) (ns : String) (now : Int)
    (kept : List (String × String)) (p : String × String)
    (hnd : (kept.map Prod.fst).Nodup)
    (hfresh : p.1 ∉ kept.map Prod.fst)
    (hlen : kept.length ≤ M) :
    Shard.set (c4shard M ns now kept) (c4pol mz kept) ⟨false, ns⟩ now p.1 p.2 =
      (none, c4shard M ns now (keptNext M kept p), c4pol mz (keptNext M kept p)) := by
  have hm : mapFind (c4shard M ns now kept).data p.1 = none := by
    show mapFind (kept.map (entPair ns now)) p.1 = none
    rw [mapFind_eq_none_iff, List.map_map]
    exact hfresh
  by_cases hcase : kept.length < M
  · have hcond : ¬(0 < (c4shard M ns now kept).maxSize ∧
        (c4shard M ns now kept).maxSize ≤ (c4shard M ns now kept).data.length) := by
      show ¬(0 < M ∧ M ≤ (kept.map (entPair ns now)).length)
      rw [List.length_map]
      omega
    rw [shardSet_fresh_eq _ _ _ _ _ _ _ _ hm (if_neg hcond)]
    rw [recordIf_of_disabled]
    · unfold keptNext
      rw [if_pos hcase]
      simp only [Prod.mk.injEq]
      refine ⟨trivial, ?_, ?_⟩
      · show ({ c4shard M ns now kept with
            data := (c4shard M ns now kept).data ++
              [(p.1, newEntry p.1 p.2 (c4shard M ns now kept).ttl ns now)]
            keys := (c4shard M ns now kept).keys ++ [p.1] } : Shard String String) =
          c4shard M ns now (kept ++ [p])
        unfold c4shard
        simp [entPair, List.map_append]
      · exact c4_poladd mz ns now kept p hfresh
    · rfl
  · have hlenM : kept.length = M := by omega
    cases kept with
    | nil =>
      rw [List.length_nil] at hlenM
      omega
    | cons q kt =>
      have hkey : q.1 ∉ kt.map Prod.fst := by
        simp only [List.map_cons, List.nodup_cons] at hnd
        exact hnd.1
      have hfresh2 : p.1 ∉ kt.map Prod.fst := by
        intro hx
        exact hfresh (by simp only [List.map_cons]; exact List.mem_cons_of_mem _ hx)
      have hcond : (0 < (c4shard M ns now (q :: kt)).maxSize ∧
          (c4shard M ns now (q :: kt)).maxSize ≤ (c4shard M ns now (q :: kt)).data.length) := by
        show 0 < M ∧ M ≤ ((q :: kt).map (entPair ns now)).length
        rw [List.length_map]
        omega
      have hstep : (if 0 < (c4shard M ns now (q :: kt)).maxSize ∧
          (c4shard M ns now (q :: kt)).maxSize ≤ (c4shard M ns now (q :: kt)).data.length
          then Shard.evict (c4shard M ns now (q :: kt)) (c4pol mz (q :: kt))
          else (none, c4shard M ns now (q :: kt), c4pol mz (q :: kt))) =
          (none, c4shard M ns now kt, c4pol mz kt) := by
        rw [if_pos hcond]
        exact c4_evict M mz ns now q kt hkey
      rw [shardSet_fresh_eq _ _ _ _ _ _ _ _ hm hstep]
      rw [recordIf_of_disabled]
      · unfold keptNext
        rw [if_neg (by omega)]
        simp only [Prod.mk.injEq]
        refine ⟨trivial, ?_, ?_⟩
        · show ({ c4shard M ns now kt with
              data := (c4shard M ns now kt).data ++
                [(p.1, newEntry p.1 p.2 (c4shard M ns now kt).ttl ns now)]
              keys := (c4shard M ns now kt).keys ++ [p.1] } : Shard String String) =
            c4shard M ns now (kt ++ [p])
          unfold c4shard
          simp [entPair, List.map_append]
        · exact c4_poladd mz ns now kt p hfresh2
      · rfl

/-- The single shard of the invariant state is shard 0 for every key. -/
theorem c4_idx (M : Nat) (mz : Int) (ns : String) (now : Int)
    (kept : List (String × String)) (k : String) :
    (c4state M mz ns now kept).shardIdx k = 0 := by
  unfold Cache.shardIdx c4state
  simp
  exact Nat.mod_one _

/-- One distinct-key set at cache level. -/
theorem c4cache_step (M : Nat) (hM : 1 ≤ M) (mz : Int) (ns : String) (now : Int)
    (kept : List (String × String)) (p : String × String)
    (hnd : (kept.map Prod.fst).Nodup)
    (hfresh : p.1 ∉ kept.map Prod.fst)
    (hlen : kept.length ≤ M) :
    Cache.set (c4state M mz ns now kept) ⟨false, ns⟩ now p.1 p.2 =
      (none, c4state M mz ns now (keptNext M kept p)) := by
  have hstep := c4shard_step M hM mz ns now kept p hnd hfresh hlen
  unfold Cache.set
  dsimp only
  rw [c4_idx]
  rw [show ((c4state M mz ns now kept).shards.getD 0 (defaultShard String String)) =
      c4shard M ns now kept from rfl]
  rw [show (c4state M mz ns now kept).policy = c4pol mz kept from rfl]
  rw [hstep]
  unfold c4state
  simp

/-- The kept pairs are the most recent min(n, M) pairs. -/
theorem foldKept_formula (M : Nat) (hM : 1 ≤ M) :
    ∀ (l : List (String × String)), foldKept M l = l.drop (l.length - M) := by
  intro l
  induction l using List.reverseRecOn with
  | nil => simp [foldKept]
  | append_singleton l p ih =>
    have happ : foldKept M (l ++ [p]) = keptNext M (foldKept M l) p := by
      unfold foldKept
      rw [List.foldl_append]
      rfl
    rw [happ, ih]
    unfold keptNext
    have hdlen : (l.drop (l.length - M)).length = l.length - (l.length - M) :=
      List.length_drop _ _
    by_cases hcase : l.length < M
    · rw [if_pos (by omega)]
      have h0 : l.length - M = 0 := by omega
      have h0b : (l ++ [p]).length - M = 0 := by
        rw [List.length_append]
        simp only [List.length_singleton]
        omega
      rw [h0, h0b]
      simp
    · rw [if_neg (by omega)]
      have h1 : (l ++ [p]).length - M = (l.length - M) + 1 := by
        rw [List.length_append]
        simp only [List.length_singleton]
        omega
      rw [h1]
      rw [List.drop_append_of_le_length (by omega)]
      have h2 : l.drop (l.length - M + 1) = (l.drop (l.length - M)).tail := by
        rw [← List.drop_one, List.drop_drop]
      rw [h2]

/-- The kept pairs always number at most M. -/
theorem foldKept_length (M : Nat) (hM : 1 ≤ M) (l : List (String × String)) :
    (foldKept M l).length ≤ M := by
  rw [foldKept_formula M hM l, List.length_drop]
  omega

/-- Running the whole set sequence from the fresh state lands on the
invariant state of the kept pairs. -/
theorem c4_invariant (M : Nat) (hM : 1 ≤ M) (mz : Int) (ns : String) (now : Int) :
    ∀ (l : List (String × String)), (l.map Prod.fst).Nodup →
      setAll (c4state M mz ns now []) ⟨false, ns⟩ now l =
        c4state M mz ns now (foldKept M l) := by
  intro l
  induction l using List.reverseRecOn with
  | nil => intro _; rfl
  | append_singleton l p ih =>
    intro hnd
    have hndl : (l.map Prod.fst).Nodup := by
      rw [List.map_append] at hnd
      exact List.Nodup.of_append_left hnd
    have hpl : p.1 ∉ l.map Prod.fst := by
      rw [List.map_append, List.nodup_append] at hnd
      intro hx
      exact hnd.2.2 hx (by simp)
    have happ : setAll (c4state M mz ns now []) ⟨false, ns⟩ now (l ++ [p]) =
        ((setAll (c4state M mz ns now []) ⟨false, ns⟩ now l).set ⟨false, ns⟩ now p.1 p.2).2 := by
      unfold setAll
      rw [List.foldl_append]
      rfl
    have hkeys : (foldKept M l).map Prod.fst = (l.map Prod.fst).drop (l.length - M) := by
      rw [foldKept_formula M hM l]
      exact List.map_drop Prod.fst l (l.length - M)
    have hndk : ((foldKept M l).map Prod.fst).Nodup := by
      rw [hkeys]
      exact List.Nodup.sublist (List.drop_sublist _ _) hndl
    have hfr : p.1 ∉ (foldKept M l).map Prod.fst := by
      rw [hkeys]
      intro hx
      exact hpl (List.Sublist.mem hx (List.drop_sublist _ _))
    have hfold : foldKept M (l ++ [p]) = keptNext M (foldKept M l) p := by
      unfold foldKept
      rw [List.foldl_append]
      rfl
    rw [happ, ih hndl, hfold]
    rw [c4cache_step M hM mz ns now (foldKept M l) p hndk hfr (foldKept_length M hM l)]

/-- The size of the invariant state. -/
theorem c4_len (M : Nat) (mz : Int) (ns : String) (now : Int)
    (kept : List (String × String)) :
    (c4state M mz ns now kept).len = kept.length := by
  unfold Cache.len c4state c4shard
  simp

/-- Every kept pair is retrievable from the invariant state. -/
theorem c4_get (M : Nat) (mz : Int) (ns : String) (now : Int)
    (kept : List (String × String)) (p : String × String)
    (hnd : (kept.map Prod.fst).Nodup) (hp : p ∈ kept) :
    ((c4state M mz ns now kept).get ⟨false, ns⟩ now p.1).1 = some p.2 := by
  have hfind : mapFind (c4shard M ns now kept).data p.1 =
      some (newEntry p.1 p.2 0 ns now) := by
    show mapFind (kept.map (entPair ns now)) p.1 = some (newEntry p.1 p.2 0 ns now)
    exact mapFind_entPair_of_mem ns now kept p hnd hp
  have hhit := shardGet_hit (c4shard M ns now kept) (c4pol mz kept) ns now p.1
    (newEntry p.1 p.2 0 ns now) hfind (Or.inr rfl)
    (newEntry_not_expired p.1 p.2 0 ns now)
  unfold Cache.get
  dsimp only
  rw [c4_idx]
  rw [show ((c4state M mz ns now kept).shards.getD 0 (defaultShard String String)) =
      c4shard M ns now kept from rfl]
  rw [show (c4state M mz ns now kept).policy = c4pol mz kept from rfl]
  exact hhit

/-- C4 amended: for a cache built with a single shard, total capacity
max_size = M >= 1 and a fresh LRU policy, and any sequence of more than M
sets with pairwise distinct keys under one non-cancelled context (any
namespace, one clock instant, default ttl 0): every set succeeds, len()
is at most M after the whole sequence and after every prefix (the single
shard holds len(data) <= max_size_per_shard = M after every successful
set), and each of the M most-recently-set keys is retrievable via get
with its value.  The original claim fails for multi-shard caches (see
the counterexample): the per-shard quota max(1, M / shards) lets the
cache hold more than M entries, and a shared LRU can evict keys of other
shards. -/
theorem C4_capacity_amended (M : Nat) (hM : 1 ≤ M) (mz : Int) (ns : String) (now : Int)
    (l : List (String × String)) (hnd : (l.map Prod.fst).Nodup) (_hN : M < l.length) :
    (setAll (lruCache M mz) ⟨false, ns⟩ now l).len ≤ M ∧
    (∀ i, (setAll (lruCache M mz) ⟨false, ns⟩ now (l.take i)).len ≤ M) ∧
    (∀ p ∈ l.drop (l.length - M),
      ((setAll (lruCache M mz) ⟨false, ns⟩ now l).get ⟨false, ns⟩ now p.1).1 = some p.2) := by
  rw [c4_base M hM mz ns now]
  have hfull := c4_invariant M hM mz ns now l hnd
  refine ⟨?_, ?_, ?_⟩
  · rw [hfull, c4_len]
    exact foldKept_length M hM l
  · intro i
    have hndi : ((l.take i).map Prod.fst).Nodup := by
      rw [List.map_take]
      exact List.Nodup.sublist (List.take_sublist _ _) hnd
    rw [c4_invariant M hM mz ns now (l.take i) hndi, c4_len]
    exact foldKept_length M hM (l.take i)
  · intro p hp
    rw [hfull]
    have hndk : ((foldKept M l).map Prod.fst).Nodup := by
      rw [foldKept_formula M hM l, List.map_drop]
      exact List.Nodup.sublist (List.drop_sublist _ _) hnd
    refine c4_get M mz ns now (foldKept M l) p hndk ?_
    rw [foldKept_formula M hM l]
    exact hp

/-- C4 witness: capacity 1, two distinct keys; the most recent key b is
retrievable and the size stays at 1. -/
theorem C4_capacity_witness :
    (setAll (lruCache 1 0) ⟨false, ""⟩ 0 [("a", "x"), ("b", "y")]).len ≤ 1 ∧
    (∀ i, (setAll (lruCache 1 0) ⟨false, ""⟩ 0 ([("a", "x"), ("b", "y")].take i)).len ≤ 1) ∧
    (∀ p ∈ [("a", "x"), ("b", "y")].drop ([("a", "x"), ("b", "y")].length - 1),
      ((setAll (lruCache 1 0) ⟨false, ""⟩ 0 [("a", "x"), ("b", "y")]).get ⟨false, ""⟩ 0 p.1).1 =
        some p.2) :=
  C4_capacity_amended 1 (by decide) 0 "" 0 [("a", "x"), ("b", "y")] (by decide) (by decide)

end Synapse
